import Mathlib

/-!
Ring buffers of `Dolecor/algo-and-ds` (`src/ring_buffer`).

A shallow embedding of the three single-producer/single-consumer ring buffers

* `RingBufferMutex`      (`ringbuffer/ring_buffer_mutex.hpp`),
* `RingBufferAtomic`     (`ringbuffer/ring_buffer_atomic.hpp`),
* `RingBufferAtomicTry`  (`ringbuffer_try/ring_buffer_atomic_try.hpp`),

as sequential state transformers, of the payload functions and the two threads of
the stress test (`ringbuffer_try/dataRaceTest.cpp`), followed by theorems about
them.

Modelling conventions.

* `size_t` is a natural number below `SIZE_MOD = 2 ^ 64`; every `+` and `-` of the
  source is written with its wrap-around (`sizeAdd`, `sizeSub`).
* The three classes have the same data members: `_bufSize` and `_buffer` inherited
  from `IRingBuffer<T>` and their own `_head` and `_tail`.  One record,
  `RingBuffer T`, holds them; each class has its own namespace of operations.
* The embedding of the methods is sequential: `std::atomic<size_t>` loads and stores
  are reads and writes of the field (a compare-exchange is a conditional write), and
  the `std::lock_guard` of the mutex variant has no effect.  The two threads of the
  stress test are a step function each, one access to the shared object per step,
  run in the order of a schedule.
* `bool get(T & value)` takes the value the caller's variable holds before the call
  and returns the value it holds afterwards.
* C++ leaves `x % 0` and an array access outside `[0, _bufSize)` undefined.  The
  definitions below are total (`x % 0 = x`, a write outside the list is dropped, a
  read outside the list leaves the output variable as it is); `Valid` describes the
  states in which none of these occurs, and the theorems are stated for such states.
-/

namespace RingBuf

/-! ## `size_t` arithmetic -/

/-- Number of values of `size_t` (64-bit target). -/
def SIZE_MOD : Nat := 2 ^ 64

/-- Addition of two `size_t` values. -/
def sizeAdd (a b : Nat) : Nat := (a + b) % SIZE_MOD

/-- Subtraction of two `size_t` values (wraps around below zero). -/
def sizeSub (a b : Nat) : Nat := (a + SIZE_MOD - b % SIZE_MOD) % SIZE_MOD

/-! ## Data members (`ring_buffer_if.hpp`, and `_head`, `_tail` of each class) -/

/-- Data members of a ring buffer object: `_bufSize` and `_buffer` of `IRingBuffer<T>`,
`_head` and `_tail` of the deriving class. -/
structure RingBuffer (T : Type) where
  /-- capacity of the inner buffer -/
  _bufSize : Nat
  /-- inner buffer of ring buffer -/
  _buffer : List T
  _head : Nat
  _tail : Nat
deriving DecidableEq, Repr

/-- Constructor `IRingBuffer<T>::IRingBuffer(size_t bufSize)` followed by the
initialisers `_head(0), _tail(0)` of the deriving class.  `new T[bufSize]` leaves
the slots with whatever `uninit` gives. -/
def IRingBuffer {T : Type} (uninit : Nat → T) (bufSize : Nat) : RingBuffer T :=
  { _bufSize := bufSize
    _buffer := (List.range bufSize).map uninit
    _head := 0
    _tail := 0 }

/-- States in which every operation has defined behaviour: the array has `_bufSize`
slots, `_bufSize` is a non-zero `size_t`, and both indices are inside the array. -/
def Valid {T : Type} (rb : RingBuffer T) : Prop :=
  rb._buffer.length = rb._bufSize ∧ 0 < rb._bufSize ∧ rb._bufSize < SIZE_MOD ∧
    rb._head < rb._bufSize ∧ rb._tail < rb._bufSize

instance {T : Type} (rb : RingBuffer T) : Decidable (Valid rb) := by
  unfold Valid; infer_instance

/-! ## `RingBufferMutex` -/

namespace RingBufferMutex

/-- Constructor `RingBufferMutex(size_t capacity)`. -/
def new {T : Type} (uninit : Nat → T) (capacity : Nat) : RingBuffer T :=
  IRingBuffer uninit (sizeAdd capacity 1)

/-- Method `next`: `(counter + 1) % _bufSize`. -/
def next {T : Type} (rb : RingBuffer T) (counter : Nat) : Nat :=
  sizeAdd counter 1 % rb._bufSize

/-- Method `unsafeEmpty`. -/
def unsafeEmpty {T : Type} (rb : RingBuffer T) : Bool :=
  rb._head == rb._tail

/-- Method `unsafeFull`. -/
def unsafeFull {T : Type} (rb : RingBuffer T) : Bool :=
  next rb rb._head == rb._tail

/-- Method `put`. -/
def put {T : Type} (rb : RingBuffer T) (value : T) : Bool × RingBuffer T :=
  if unsafeFull rb then
    (false, rb)
  else
    (true, { rb with _buffer := rb._buffer.set rb._head value, _head := next rb rb._head })

/-- Method `get`; `value` is the caller's variable before the call, the second
component of the result is the variable after the call. -/
def get {T : Type} (rb : RingBuffer T) (value : T) : Bool × T × RingBuffer T :=
  if unsafeEmpty rb then
    (false, value, rb)
  else
    (true, rb._buffer.getD rb._tail value, { rb with _tail := next rb rb._tail })

/-- Method `empty`. -/
def empty {T : Type} (rb : RingBuffer T) : Bool := unsafeEmpty rb

/-- Method `full`. -/
def full {T : Type} (rb : RingBuffer T) : Bool := unsafeFull rb

/-- Method `size`. -/
def size {T : Type} (rb : RingBuffer T) : Nat :=
  if rb._head ≥ rb._tail then
    sizeSub rb._head rb._tail
  else
    sizeSub (sizeAdd rb._head rb._bufSize) rb._tail

/-- Method `capacity`. -/
def capacity {T : Type} (rb : RingBuffer T) : Nat := sizeSub rb._bufSize 1

end RingBufferMutex

/-! ## `RingBufferAtomic` -/

namespace RingBufferAtomic

/-- Constructor `RingBufferAtomic(size_t capacity)`. -/
def new {T : Type} (uninit : Nat → T) (capacity : Nat) : RingBuffer T :=
  IRingBuffer uninit (sizeAdd capacity 1)

/-- Method `next`: `(counter + 1) % _bufSize`. -/
def next {T : Type} (rb : RingBuffer T) (counter : Nat) : Nat :=
  sizeAdd counter 1 % rb._bufSize

/-- Method `put`. -/
def put {T : Type} (rb : RingBuffer T) (value : T) : Bool × RingBuffer T :=
  let head := rb._head
  let nextHead := next rb head
  if nextHead == rb._tail then
    (false, rb)
  else
    (true, { rb with _buffer := rb._buffer.set head value, _head := nextHead })

/-- Method `get`; `value` is the caller's variable before the call, the second
component of the result is the variable after the call. -/
def get {T : Type} (rb : RingBuffer T) (value : T) : Bool × T × RingBuffer T :=
  let tail := rb._tail
  if tail == rb._head then
    (false, value, rb)
  else
    (true, rb._buffer.getD tail value, { rb with _tail := next rb tail })

/-- Method `empty`. -/
def empty {T : Type} (rb : RingBuffer T) : Bool :=
  rb._head == rb._tail

/-- Method `full`. -/
def full {T : Type} (rb : RingBuffer T) : Bool :=
  let head := rb._head
  next rb head == rb._tail

/-- Method `size`. -/
def size {T : Type} (rb : RingBuffer T) : Nat :=
  let head := rb._head
  let tail := rb._tail
  if head ≥ tail then
    sizeSub head tail
  else
    sizeSub (sizeAdd head rb._bufSize) tail

/-- Method `capacity`. -/
def capacity {T : Type} (rb : RingBuffer T) : Nat := sizeSub rb._bufSize 1

end RingBufferAtomic

/-! ## `RingBufferAtomicTry` -/

namespace RingBufferAtomicTry

/-- Constructor `RingBufferAtomicTry(size_t capacity)`. -/
def new {T : Type} (uninit : Nat → T) (capacity : Nat) : RingBuffer T :=
  IRingBuffer uninit (sizeAdd capacity 1)

/-- Method `next`: `(counter + 1) % _bufSize`. -/
def next {T : Type} (rb : RingBuffer T) (counter : Nat) : Nat :=
  sizeAdd counter 1 % rb._bufSize

/-- Method `put`: `_tail.compare_exchange_strong(expectedTail, next(nextHead))` writes
`next(nextHead)` to `_tail` exactly when `_tail == expectedTail`; then the slot and
`_head` are written. -/
def put {T : Type} (rb : RingBuffer T) (value : T) : Bool × RingBuffer T :=
  let head := rb._head
  let nextHead := next rb head
  let expectedTail := nextHead
  let tail := if rb._tail == expectedTail then next rb nextHead else rb._tail
  (true, { rb with _tail := tail, _buffer := rb._buffer.set head value, _head := nextHead })

/-- Method `get`; `value` is the caller's variable before the call, the second
component of the result is the variable after the call. -/
def get {T : Type} (rb : RingBuffer T) (value : T) : Bool × T × RingBuffer T :=
  let tail := rb._tail
  if tail == rb._head then
    (false, value, rb)
  else
    (true, rb._buffer.getD tail value, { rb with _tail := next rb tail })

/-- Method `empty`. -/
def empty {T : Type} (rb : RingBuffer T) : Bool :=
  rb._head == rb._tail

/-- Method `full`. -/
def full {T : Type} (rb : RingBuffer T) : Bool :=
  let head := rb._head
  next rb head == rb._tail

/-- Method `size`. -/
def size {T : Type} (rb : RingBuffer T) : Nat :=
  let head := rb._head
  let tail := rb._tail
  if head ≥ tail then
    sizeSub head tail
  else
    sizeSub (sizeAdd head rb._bufSize) tail

/-- Method `capacity`. -/
def capacity {T : Type} (rb : RingBuffer T) : Nat := sizeSub rb._bufSize 1

end RingBufferAtomicTry

/-! ## Callers: sequences of operations, as in the loops of `test.cpp` -/

/-- Loop `for (auto val : values) pBuf->put(val);` for any of the `put` methods:
the return values in call order and the final state. -/
def putAll {T : Type} (put : RingBuffer T → T → Bool × RingBuffer T) :
    RingBuffer T → List T → List Bool × RingBuffer T
  | rb, [] => ([], rb)
  | rb, v :: vs =>
    let r := put rb v
    let rest := putAll put r.2 vs
    (r.1 :: rest.1, rest.2)

/-- Loop `for (i = 0; i < n; ++i) pBuf->get(val);` for any of the `get` methods, with
one variable `val` reused by all calls: for each call its return value and the
content of `val` after it, then the final `val` and the final state. -/
def getN {T : Type} (get : RingBuffer T → T → Bool × T × RingBuffer T) :
    RingBuffer T → T → Nat → List (Bool × T) × T × RingBuffer T
  | rb, val, 0 => ([], val, rb)
  | rb, val, n + 1 =>
    let r := get rb val
    let rest := getN get r.2.2 r.2.1 n
    ((r.1, r.2.1) :: rest.1, rest.2)

/-! ## Abstraction: the live elements, oldest first -/

/-- Slots from `_tail` (inclusive) to `_head` (exclusive), modulo `_bufSize`. -/
def live {T : Type} (rb : RingBuffer T) : List T :=
  (List.range (RingBufferAtomic.size rb)).filterMap
    (fun k => rb._buffer[(rb._tail + k) % rb._bufSize]?)

/-- Index-range predicate of the data model: `0 <= _head < N` and `0 <= _tail < N`
with `N = _bufSize`. -/
def IndexInRange {T : Type} (rb : RingBuffer T) : Prop :=
  rb._head < rb._bufSize ∧ rb._tail < rb._bufSize

instance {T : Type} (rb : RingBuffer T) : Decidable (IndexInRange rb) := by
  unfold IndexInRange; infer_instance

/-! ## The interface `IRingBuffer<T>` and sequences of calls on one object -/

/-- Virtual methods of `IRingBuffer<T>` (`ring_buffer_if.hpp`) as one class overrides
them. -/
structure Methods (T : Type) where
  put : RingBuffer T → T → Bool × RingBuffer T
  get : RingBuffer T → T → Bool × T × RingBuffer T
  empty : RingBuffer T → Bool
  full : RingBuffer T → Bool
  size : RingBuffer T → Nat
  capacity : RingBuffer T → Nat

/-- Overrides of `RingBufferMutex`. -/
def RingBufferMutex.methods {T : Type} : Methods T :=
  { put := RingBufferMutex.put, get := RingBufferMutex.get, empty := RingBufferMutex.empty,
    full := RingBufferMutex.full, size := RingBufferMutex.size,
    capacity := RingBufferMutex.capacity }

/-- Overrides of `RingBufferAtomic`. -/
def RingBufferAtomic.methods {T : Type} : Methods T :=
  { put := RingBufferAtomic.put, get := RingBufferAtomic.get, empty := RingBufferAtomic.empty,
    full := RingBufferAtomic.full, size := RingBufferAtomic.size,
    capacity := RingBufferAtomic.capacity }

/-- Overrides of `RingBufferAtomicTry`. -/
def RingBufferAtomicTry.methods {T : Type} : Methods T :=
  { put := RingBufferAtomicTry.put, get := RingBufferAtomicTry.get,
    empty := RingBufferAtomicTry.empty, full := RingBufferAtomicTry.full,
    size := RingBufferAtomicTry.size, capacity := RingBufferAtomicTry.capacity }

/-- A call of one of the six methods of the interface. -/
inductive Call (T : Type) where
  | put (value : T)
  | get
  | empty
  | full
  | size
  | capacity
deriving DecidableEq, Repr

/-- What a call gives back: the boolean of `put`, `empty`, `full`; the boolean of
`get` with the content of the caller's variable after the call; the number of `size`,
`capacity`. -/
inductive Ret (T : Type) where
  | bool (b : Bool)
  | got (b : Bool) (value : T)
  | num (n : Nat)
deriving DecidableEq, Repr

/-- One call through the interface on the object `s.1`; `s.2` is the variable the
caller passes to `get`. -/
def call {T : Type} (m : Methods T) (s : RingBuffer T × T) :
    Call T → Ret T × (RingBuffer T × T)
  | .put value => (.bool (m.put s.1 value).1, ((m.put s.1 value).2, s.2))
  | .get => (.got (m.get s.1 s.2).1 (m.get s.1 s.2).2.1,
      ((m.get s.1 s.2).2.2, (m.get s.1 s.2).2.1))
  | .empty => (.bool (m.empty s.1), s)
  | .full => (.bool (m.full s.1), s)
  | .size => (.num (m.size s.1), s)
  | .capacity => (.num (m.capacity s.1), s)

/-- A sequence of calls on one object: for each call, what it gives back and the
state of the object after it. -/
def runCalls {T : Type} (m : Methods T) :
    RingBuffer T × T → List (Call T) → List (Ret T × RingBuffer T)
  | _, [] => []
  | s, c :: cs => ((call m s c).1, (call m s c).2.1) :: runCalls m (call m s c).2 cs

/-- State of the object and of the caller's variable after a sequence of calls. -/
def afterCalls {T : Type} (m : Methods T) :
    RingBuffer T × T → List (Call T) → RingBuffer T × T
  | s, [] => s
  | s, c :: cs => afterCalls m (call m s c).2 cs

/-- A mutating call: `put(value)` or `get`. -/
inductive Op (T : Type) where
  | put (value : T)
  | get
deriving DecidableEq, Repr

/-- The interface call of a mutating call. -/
def Op.toCall {T : Type} : Op T → Call T
  | .put value => .put value
  | .get => .get

/-! ## Reference model: a bounded FIFO queue on a list -/

/-- List-based queue with bound `bound`. -/
structure BoundedQueue (T : Type) where
  bound : Nat
  items : List T
deriving DecidableEq, Repr

/-- Reference `put`: appends when the length is below the bound and otherwise
rejects. -/
def BoundedQueue.put {T : Type} (q : BoundedQueue T) (value : T) : Bool × BoundedQueue T :=
  if q.items.length < q.bound then (true, { q with items := q.items ++ [value] })
  else (false, q)

/-- Reference `get`: removes the front when non-empty and otherwise rejects. -/
def BoundedQueue.get {T : Type} (q : BoundedQueue T) (value : T) :
    Bool × T × BoundedQueue T :=
  match q.items with
  | [] => (false, value, q)
  | x :: xs => (true, x, { q with items := xs })

/-- One mutating call on the reference queue `s.1`, with the caller's variable
`s.2`. -/
def BoundedQueue.call {T : Type} (s : BoundedQueue T × T) :
    Op T → Ret T × (BoundedQueue T × T)
  | .put value => (.bool (s.1.put value).1, ((s.1.put value).2, s.2))
  | .get => (.got (s.1.get s.2).1 (s.1.get s.2).2.1, ((s.1.get s.2).2.2, (s.1.get s.2).2.1))

/-- A sequence of mutating calls on the reference queue: for each call, what it gives
back and the queue after it. -/
def BoundedQueue.runCalls {T : Type} :
    BoundedQueue T × T → List (Op T) → List (Ret T × BoundedQueue T)
  | _, [] => []
  | s, o :: os =>
    ((BoundedQueue.call s o).1, (BoundedQueue.call s o).2.1) ::
      BoundedQueue.runCalls (BoundedQueue.call s o).2 os

/-! ## Stress test payload (`ringbuffer_try/dataRaceTest.cpp`)

`int32_t` and `int64_t` are integers in `[-2^31, 2^31)` and `[-2^63, 2^63)`,
`uint32_t` and `uint64_t` natural numbers below `2^32` and `2^64`; the conversions
between them are the modular ones. -/

/-- Conversion `(uint32_t) x`. -/
def toUInt32 (x : Int) : Nat := (x % 2 ^ 32).toNat

/-- Conversion `(uint64_t) x`. -/
def toUInt64 (x : Int) : Nat := (x % 2 ^ 64).toNat

/-- Conversion `(int32_t) n` of an unsigned value. -/
def toInt32 (n : Nat) : Int :=
  if n % 2 ^ 32 < 2 ^ 31 then ((n % 2 ^ 32 : Nat) : Int) else ((n % 2 ^ 32 : Nat) : Int) - 2 ^ 32

/-- Conversion `(int64_t) n` of an unsigned value. -/
def toInt64 (n : Nat) : Int :=
  if n % 2 ^ 64 < 2 ^ 63 then ((n % 2 ^ 64 : Nat) : Int) else ((n % 2 ^ 64 : Nat) : Int) - 2 ^ 64

/-- Function `pack`: `high = (uint64_t)(uint32_t)(seq) << 32U`,
`low = (uint64_t)(uint32_t)(num) & 0xFFFFFFFFU`, both stored in `int64_t`, and
`high | low` on the two's complement bits. -/
def pack (seq num : Int) : Int :=
  let high : Int := toInt64 ((toUInt32 seq <<< 32) % 2 ^ 64)
  let low : Int := toInt64 (toUInt32 num &&& 0xFFFFFFFF)
  toInt64 (toUInt64 high ||| toUInt64 low)

/-- Function `unpack`: `seq = (int32_t)((uint64_t)val >> 32UL)` and
`num = (int32_t)(val & 0xFFFFFFFFUL)`, returned as `(seq, num)`. -/
def unpack (val : Int) : Int × Int :=
  (toInt32 (toUInt64 val >>> 32), toInt32 (toUInt64 val &&& 0xFFFFFFFF))

/-- Loop of `checkPrecendence` from index 1 on, `prevSeq` being the sequence id of
the element before. -/
def checkPrecendenceLoop (prevSeq : Int) : List Int → Bool
  | [] => true
  | v :: vs =>
    let seq := (unpack v).1
    if seq < prevSeq then false else checkPrecendenceLoop seq vs

/-- Function `checkPrecendence`: the sequence ids never decrease.  (On an empty vector
the source reads `values[0]`, which is undefined; `true` here.) -/
def checkPrecendence : List Int → Bool
  | [] => true
  | v :: vs => checkPrecendenceLoop (unpack v).1 vs

/-- Loop `for (int32_t i = ...; i < numValues; ++i) values.push_back(pack(i, distrib(gen)))`
of `testAtomicDataRace` from counter `i` on, the random numbers drawn being `rands`. -/
def producedFrom (i : Int) : List Int → List Int
  | [] => []
  | r :: rs => pack i r :: producedFrom (i + 1) rs

/-- Vector `values` of `testAtomicDataRace` for the random numbers `rands`. -/
def producedValues (rands : List Int) : List Int := producedFrom 0 rands

/-! ## Producer and consumer threads on one `RingBufferAtomicTry<int64_t>`

Every step of a thread is one access to the shared object: one atomic load, store
or compare-exchange of an index, or one access to a slot.  The steps of the two
threads are taken one at a time in the order a schedule gives. -/

/-- Next access of `RingBufferAtomicTry::put`. -/
inductive PutPoint where
  /-- `_head.load`; `nextHead` and `expectedTail` are computed with it -/
  | loadHead
  /-- `_tail.compare_exchange_strong(expectedTail, next(nextHead))` -/
  | exchangeTail
  /-- `_buffer[head] = value` -/
  | writeSlot
  /-- `_head.store(nextHead)`, then `return true` -/
  | storeHead
deriving DecidableEq, Repr

/-- Next access of `RingBufferAtomicTry::get`. -/
inductive GetPoint where
  /-- `_tail.load` -/
  | loadTail
  /-- `_head.load` and the test `tail == ...`; `return false` when equal -/
  | loadHead
  /-- `value = _buffer[tail]` -/
  | readSlot
  /-- `_tail.store(next(tail))`, then `return true` and the caller's `push_back` -/
  | storeTail
deriving DecidableEq, Repr

/-- Function `producer`: the values the loop has still to insert (the first one is
the argument of the call of `put` in progress) and the locals of `put`. -/
structure ProducerThread where
  values : List Int
  point : PutPoint
  head : Nat
  nextHead : Nat
deriving DecidableEq, Repr

/-- Function `consumer`: the locals of `get`, the variable `val` and the vector
`consumedValues`. -/
structure ConsumerThread where
  point : GetPoint
  tail : Nat
  val : Int
  consumedValues : List Int
deriving DecidableEq, Repr

/-- The shared object and the two threads. -/
structure Race where
  buf : RingBuffer Int
  prod : ProducerThread
  cons : ConsumerThread
deriving DecidableEq, Repr

/-- One step of the producer thread; nothing once all values are inserted. -/
def producerStep (s : Race) : Race :=
  match s.prod.values with
  | [] => s
  | value :: rest =>
    match s.prod.point with
    | .loadHead =>
      { s with prod := { s.prod with point := .exchangeTail, head := s.buf._head,
                                     nextHead := RingBufferAtomicTry.next s.buf s.buf._head } }
    | .exchangeTail =>
      { s with buf := { s.buf with _tail := if s.buf._tail == s.prod.nextHead
                                     then RingBufferAtomicTry.next s.buf s.prod.nextHead
                                     else s.buf._tail },
               prod := { s.prod with point := .writeSlot } }
    | .writeSlot =>
      { s with buf := { s.buf with _buffer := s.buf._buffer.set s.prod.head value },
               prod := { s.prod with point := .storeHead } }
    | .storeHead =>
      { s with buf := { s.buf with _head := s.prod.nextHead },
               prod := { s.prod with point := .loadHead, values := rest } }

/-- One step of the consumer thread. -/
def consumerStep (s : Race) : Race :=
  match s.cons.point with
  | .loadTail =>
    { s with cons := { s.cons with point := .loadHead, tail := s.buf._tail } }
  | .loadHead =>
    if s.cons.tail == s.buf._head then
      { s with cons := { s.cons with point := .loadTail } }
    else
      { s with cons := { s.cons with point := .readSlot } }
  | .readSlot =>
    { s with cons := { s.cons with point := .storeTail,
                                   val := s.buf._buffer.getD s.cons.tail s.cons.val } }
  | .storeTail =>
    { s with buf := { s.buf with _tail := RingBufferAtomicTry.next s.buf s.cons.tail },
             cons := { s.cons with point := .loadTail,
                                   consumedValues := s.cons.consumedValues ++ [s.cons.val] } }

/-- The two threads. -/
inductive Thread where
  | producer
  | consumer
deriving DecidableEq, Repr

/-- Steps of the two threads in the order of a schedule. -/
def runThreads : Race → List Thread → Race
  | s, [] => s
  | s, .producer :: ts => runThreads (producerStep s) ts
  | s, .consumer :: ts => runThreads (consumerStep s) ts

/-- Start of `testAtomicDataRace`: a fresh buffer of capacity `bufSize`, the producer
before its first `put` with the values to insert, the consumer before its first
`get`. -/
def raceStart (uninit : Nat → Int) (bufSize : Nat) (values : List Int) (val : Int) : Race :=
  { buf := RingBufferAtomicTry.new uninit bufSize
    prod := { values := values, point := .loadHead, head := 0, nextHead := 0 }
    cons := { point := .loadTail, tail := 0, val := val, consumedValues := [] } }

/-- Twelve random numbers for `testAtomicDataRace`. -/
def reorderRands : List Int :=
  [5, -3, 7, 0, -2147483648, 2147483647, 1, -1, 42, 9, -8, 100]

/-- A schedule of the two threads on a buffer of capacity 10: the producer completes
ten calls of `put`; the consumer starts `get`, loads `_tail` and `_head` and stops
before the slot; the producer completes an eleventh `put` and takes the first three
steps of the twelfth (up to the slot, before `_head.store`); the consumer finishes its
`get` and completes another one; the producer takes its last step. -/
def reorderSchedule : List Thread :=
  List.replicate 40 .producer ++ [.consumer, .consumer] ++
    List.replicate 4 .producer ++ List.replicate 3 .producer ++
    [.consumer, .consumer] ++ [.consumer, .consumer, .consumer, .consumer] ++ [.producer]

/-! ## Basic facts -/

theorem mutex_next_eq {T : Type} : @RingBufferMutex.next T = RingBufferAtomic.next := rfl

theorem try_next_eq {T : Type} : @RingBufferAtomicTry.next T = RingBufferAtomic.next := rfl

theorem mutex_put_eq {T : Type} : @RingBufferMutex.put T = RingBufferAtomic.put := rfl

theorem mutex_get_eq {T : Type} : @RingBufferMutex.get T = RingBufferAtomic.get := by
  funext rb value
  simp only [RingBufferMutex.get, RingBufferAtomic.get, RingBufferMutex.unsafeEmpty,
    mutex_next_eq]
  by_cases h : rb._head = rb._tail
  · simp [h]
  · have h2 : ¬ rb._tail = rb._head := fun e => h e.symm
    simp [h, h2]

theorem mutex_empty_eq {T : Type} : @RingBufferMutex.empty T = RingBufferAtomic.empty := rfl

theorem mutex_full_eq {T : Type} : @RingBufferMutex.full T = RingBufferAtomic.full := rfl

theorem mutex_size_eq {T : Type} : @RingBufferMutex.size T = RingBufferAtomic.size := rfl

theorem mutex_capacity_eq {T : Type} :
    @RingBufferMutex.capacity T = RingBufferAtomic.capacity := rfl

theorem mutex_new_eq {T : Type} : @RingBufferMutex.new T = RingBufferAtomic.new := rfl

theorem try_get_eq {T : Type} : @RingBufferAtomicTry.get T = RingBufferAtomic.get := rfl

theorem try_empty_eq {T : Type} : @RingBufferAtomicTry.empty T = RingBufferAtomic.empty := rfl

theorem try_full_eq {T : Type} : @RingBufferAtomicTry.full T = RingBufferAtomic.full := rfl

theorem try_size_eq {T : Type} : @RingBufferAtomicTry.size T = RingBufferAtomic.size := rfl

theorem try_capacity_eq {T : Type} :
    @RingBufferAtomicTry.capacity T = RingBufferAtomic.capacity := rfl

theorem try_new_eq {T : Type} : @RingBufferAtomicTry.new T = RingBufferAtomic.new := rfl

/-- Wrap-around of an index that has moved at most once round the array. -/
theorem mod_wrap (x n : Nat) (h : x < 2 * n) :
    x % n = if x < n then x else x - n := by
  split
  · next h1 => exact Nat.mod_eq_of_lt h1
  · next h1 =>
    have h2 : n ≤ x := Nat.le_of_not_lt h1
    rw [Nat.mod_eq_sub_mod h2]
    exact Nat.mod_eq_of_lt (by omega)

/-- Method `next` on an index of the array. -/
theorem next_val {T : Type} (rb : RingBuffer T) (x : Nat)
    (hN : rb._bufSize < SIZE_MOD) (hx : x < rb._bufSize) :
    RingBufferAtomic.next rb x = if x + 1 < rb._bufSize then x + 1 else 0 := by
  have h1 : sizeAdd x 1 = x + 1 := by
    unfold sizeAdd; exact Nat.mod_eq_of_lt (by omega)
  unfold RingBufferAtomic.next
  rw [h1, mod_wrap _ _ (by omega)]
  split <;> omega

theorem next_lt {T : Type} (rb : RingBuffer T) (x : Nat)
    (hN : rb._bufSize < SIZE_MOD) (hx : x < rb._bufSize) :
    RingBufferAtomic.next rb x < rb._bufSize := by
  rw [next_val rb x hN hx]; split <;> omega

/-- Method `size` in a valid state, without the machine arithmetic. -/
theorem size_val {T : Type} (rb : RingBuffer T) (hv : Valid rb) :
    RingBufferAtomic.size rb =
      if rb._tail ≤ rb._head then rb._head - rb._tail
      else rb._head + rb._bufSize - rb._tail := by
  obtain ⟨_, _, hN, hh, ht⟩ := hv
  simp only [RingBufferAtomic.size, sizeSub, sizeAdd, SIZE_MOD, ge_iff_le] at *
  split <;> omega

/-- Method `capacity` in a valid state. -/
theorem capacity_val {T : Type} (rb : RingBuffer T) (hv : Valid rb) :
    RingBufferAtomic.capacity rb = rb._bufSize - 1 := by
  obtain ⟨_, _, hN, hh, ht⟩ := hv
  simp only [RingBufferAtomic.capacity, sizeSub, SIZE_MOD] at *
  omega

/-- Method `full` in a valid state: one element short of the array length. -/
theorem full_iff_size {T : Type} (rb : RingBuffer T) (hv : Valid rb) :
    RingBufferAtomic.full rb = true ↔ RingBufferAtomic.size rb + 1 = rb._bufSize := by
  have hs := size_val rb hv
  obtain ⟨_, hpos, hN, hh, ht⟩ := hv
  have hn := next_val rb rb._head hN hh
  simp only [RingBufferAtomic.full, beq_iff_eq]
  rw [hn, hs]
  split <;> split <;> omega

/-- Method `empty` in a valid state. -/
theorem empty_iff_size {T : Type} (rb : RingBuffer T) (hv : Valid rb) :
    RingBufferAtomic.empty rb = true ↔ RingBufferAtomic.size rb = 0 := by
  have hs := size_val rb hv
  obtain ⟨_, hpos, hN, hh, ht⟩ := hv
  simp only [RingBufferAtomic.empty, beq_iff_eq]
  rw [hs]
  split <;> omega

theorem size_lt_bufSize {T : Type} (rb : RingBuffer T) (hv : Valid rb) :
    RingBufferAtomic.size rb < rb._bufSize := by
  have hs := size_val rb hv
  obtain ⟨_, hpos, hN, hh, ht⟩ := hv
  rw [hs]
  split <;> omega

/-- A successful `put`: the new state. -/
theorem put_not_full {T : Type} (rb : RingBuffer T) (v : T) (hv : Valid rb)
    (hf : RingBufferAtomic.size rb + 1 < rb._bufSize) :
    RingBufferAtomic.put rb v =
      (true, { rb with _buffer := rb._buffer.set rb._head v,
                       _head := RingBufferAtomic.next rb rb._head }) := by
  have h1 : ¬ RingBufferAtomic.full rb = true := by
    rw [full_iff_size rb hv]; omega
  simp only [RingBufferAtomic.full, beq_iff_eq] at h1
  simp [RingBufferAtomic.put, h1]

/-- A successful `put` keeps the state valid and adds one to `size`. -/
theorem put_not_full_valid {T : Type} (rb : RingBuffer T) (v : T) (hv : Valid rb)
    (hf : RingBufferAtomic.size rb + 1 < rb._bufSize) :
    Valid (RingBufferAtomic.put rb v).2 ∧
      (RingBufferAtomic.put rb v).2._bufSize = rb._bufSize ∧
      RingBufferAtomic.size (RingBufferAtomic.put rb v).2 = RingBufferAtomic.size rb + 1 := by
  rw [put_not_full rb v hv hf]
  have hs := size_val rb hv
  obtain ⟨hl, hpos, hN, hh, ht⟩ := hv
  have hn := next_val rb rb._head hN hh
  have hv2 : Valid { rb with _buffer := rb._buffer.set rb._head v,
                             _head := RingBufferAtomic.next rb rb._head } := by
    refine ⟨by simpa using hl, hpos, hN, ?_, ht⟩
    exact next_lt rb _ hN hh
  refine ⟨hv2, rfl, ?_⟩
  rw [size_val _ hv2]
  simp only
  rw [hn]
  rw [hs] at hf ⊢
  split at hf <;> split <;> split <;> omega

/-- The slot `size` positions after `_tail` is the one `_head` points at, and no
earlier position is. -/
theorem tail_add_mod {T : Type} (rb : RingBuffer T) (hv : Valid rb) (k : Nat)
    (hk : k ≤ RingBufferAtomic.size rb) :
    ((rb._tail + k) % rb._bufSize = rb._head ↔ k = RingBufferAtomic.size rb) := by
  have hs := size_val rb hv
  obtain ⟨hl, hpos, hN, hh, ht⟩ := hv
  rw [hs] at hk ⊢
  rw [mod_wrap _ _ (by split at hk <;> omega)]
  split at hk <;> split <;> omega

/-- A successful `put` appends the value to the live elements. -/
theorem put_not_full_live {T : Type} (rb : RingBuffer T) (v : T) (hv : Valid rb)
    (hf : RingBufferAtomic.size rb + 1 < rb._bufSize) :
    live (RingBufferAtomic.put rb v).2 = live rb ++ [v] := by
  have hsz := (put_not_full_valid rb v hv hf).2.2
  unfold live
  rw [hsz, List.range_succ, List.filterMap_append]
  rw [put_not_full rb v hv hf]
  simp only
  congr 1
  · apply List.filterMap_congr
    intro k hk
    have hk2 : k < RingBufferAtomic.size rb := List.mem_range.mp hk
    have hne : ¬ (rb._tail + k) % rb._bufSize = rb._head := by
      rw [tail_add_mod rb hv k (Nat.le_of_lt hk2)]; omega
    rw [List.getElem?_set_ne (fun e => hne e.symm)]
  · have he : (rb._tail + RingBufferAtomic.size rb) % rb._bufSize = rb._head :=
      (tail_add_mod rb hv _ (Nat.le_refl _)).mpr rfl
    have hlt : rb._head < rb._buffer.length := by rw [hv.1]; exact hv.2.2.2.1
    simp [he, List.getElem?_set_self, hlt]

/-- A successful `get`: the new state. -/
theorem get_not_empty {T : Type} (rb : RingBuffer T) (out : T)
    (hs : RingBufferAtomic.size rb ≠ 0) (hv : Valid rb) :
    RingBufferAtomic.get rb out =
      (true, rb._buffer.getD rb._tail out,
        { rb with _tail := RingBufferAtomic.next rb rb._tail }) := by
  have h1 : ¬ RingBufferAtomic.empty rb = true := by
    rw [empty_iff_size rb hv]; exact hs
  simp only [RingBufferAtomic.empty, beq_iff_eq] at h1
  have h2 : ¬ rb._tail = rb._head := fun e => h1 e.symm
  simp [RingBufferAtomic.get, h2]

/-- A successful `get` keeps the state valid and takes one from `size`. -/
theorem get_not_empty_valid {T : Type} (rb : RingBuffer T) (out : T)
    (hs : RingBufferAtomic.size rb ≠ 0) (hv : Valid rb) :
    Valid (RingBufferAtomic.get rb out).2.2 ∧
      (RingBufferAtomic.get rb out).2.2._bufSize = rb._bufSize ∧
      RingBufferAtomic.size (RingBufferAtomic.get rb out).2.2 + 1 =
        RingBufferAtomic.size rb := by
  rw [get_not_empty rb out hs hv]
  have hsv := size_val rb hv
  obtain ⟨hl, hpos, hN, hh, ht⟩ := hv
  have hn := next_val rb rb._tail hN ht
  have hv2 : Valid { rb with _tail := RingBufferAtomic.next rb rb._tail } :=
    ⟨hl, hpos, hN, hh, next_lt rb _ hN ht⟩
  refine ⟨hv2, rfl, ?_⟩
  rw [size_val _ hv2]
  simp only
  rw [hn]
  rw [hsv] at hs ⊢
  split at hs <;> split <;> split <;> omega

/-- A successful `get` writes the oldest live element to the output variable and
leaves the others. -/
theorem get_not_empty_live {T : Type} (rb : RingBuffer T) (out : T)
    (hs : RingBufferAtomic.size rb ≠ 0) (hv : Valid rb) :
    live rb = (RingBufferAtomic.get rb out).2.1 :: live (RingBufferAtomic.get rb out).2.2 := by
  have hsz := (get_not_empty_valid rb out hs hv).2.2
  unfold live
  rw [← hsz, List.range_succ_eq_map, List.filterMap_cons, List.filterMap_map]
  rw [get_not_empty rb out hs hv]
  obtain ⟨hl, hpos, hN, hh, ht⟩ := hv
  have hlt : rb._tail < rb._buffer.length := by rw [hl]; exact ht
  have h0 : (rb._tail + 0) % rb._bufSize = rb._tail := by
    rw [Nat.add_zero]; exact Nat.mod_eq_of_lt ht
  simp only [h0, List.getElem?_eq_getElem hlt, List.getD_eq_getElem?_getD, Option.getD_some]
  congr 1
  apply List.filterMap_congr
  intro k _
  have hn : RingBufferAtomic.next rb rb._tail = (rb._tail + 1) % rb._bufSize := by
    unfold RingBufferAtomic.next sizeAdd
    rw [Nat.mod_eq_of_lt (a := rb._tail + 1) (by omega)]
  simp only [Function.comp, hn, Nat.mod_add_mod]
  congr 2
  omega

/-- A run of `put` calls that fits in the free space: every call succeeds and the
values are appended to the live elements. -/
theorem putAll_fits {T : Type} (vs : List T) (rb : RingBuffer T) (hv : Valid rb)
    (hf : RingBufferAtomic.size rb + vs.length < rb._bufSize) :
    (putAll RingBufferAtomic.put rb vs).1 = List.replicate vs.length true ∧
      Valid (putAll RingBufferAtomic.put rb vs).2 ∧
      (putAll RingBufferAtomic.put rb vs).2._bufSize = rb._bufSize ∧
      RingBufferAtomic.size (putAll RingBufferAtomic.put rb vs).2 =
        RingBufferAtomic.size rb + vs.length ∧
      live (putAll RingBufferAtomic.put rb vs).2 = live rb ++ vs := by
  induction vs generalizing rb with
  | nil => simp [putAll, hv]
  | cons v vs ih =>
    simp only [List.length_cons] at hf
    have hf1 : RingBufferAtomic.size rb + 1 < rb._bufSize := by omega
    obtain ⟨hv1, hb1, hs1⟩ := put_not_full_valid rb v hv hf1
    have hl1 := put_not_full_live rb v hv hf1
    have hr1 : (RingBufferAtomic.put rb v).1 = true := by rw [put_not_full rb v hv hf1]
    obtain ⟨i1, i2, i3, i4, i5⟩ := ih (RingBufferAtomic.put rb v).2 hv1 (by rw [hs1, hb1]; omega)
    simp only [putAll, List.length_cons, List.replicate_succ]
    refine ⟨by rw [hr1, i1], i2, by rw [i3, hb1], by rw [i4, hs1]; omega, ?_⟩
    rw [i5, hl1, List.append_assoc]; rfl

/-- A run of `n` calls of `get` on a buffer holding at least `n` elements: every call
succeeds and the calls yield the `n` oldest live elements, oldest first. -/
theorem getN_live {T : Type} (n : Nat) (rb : RingBuffer T) (val : T) (hv : Valid rb)
    (hn : n ≤ RingBufferAtomic.size rb) :
    (getN RingBufferAtomic.get rb val n).1 = ((live rb).take n).map (fun v => (true, v)) ∧
      Valid (getN RingBufferAtomic.get rb val n).2.2 ∧
      (getN RingBufferAtomic.get rb val n).2.2._bufSize = rb._bufSize ∧
      (getN RingBufferAtomic.get rb val n).2.2._head = rb._head ∧
      RingBufferAtomic.size (getN RingBufferAtomic.get rb val n).2.2 + n =
        RingBufferAtomic.size rb ∧
      live (getN RingBufferAtomic.get rb val n).2.2 = (live rb).drop n := by
  induction n generalizing rb val with
  | zero => simp [getN, hv]
  | succ n ih =>
    have hs : RingBufferAtomic.size rb ≠ 0 := by omega
    obtain ⟨hv1, hb1, hs1⟩ := get_not_empty_valid rb val hs hv
    have hl1 := get_not_empty_live rb val hs hv
    have hr1 : (RingBufferAtomic.get rb val).1 = true := by rw [get_not_empty rb val hs hv]
    have hh1 : (RingBufferAtomic.get rb val).2.2._head = rb._head := by
      rw [get_not_empty rb val hs hv]
    obtain ⟨i1, i2, i3, i4, i5, i6⟩ :=
      ih (RingBufferAtomic.get rb val).2.2 (RingBufferAtomic.get rb val).2.1 hv1 (by omega)
    simp only [getN]
    refine ⟨?_, i2, by rw [i3, hb1], by rw [i4, hh1], by omega, ?_⟩
    · rw [i1, hr1, hl1]; simp
    · rw [i6]; conv_rhs => rw [hl1]
      simp

/-- A valid state with `_head == _tail` has no live element. -/
theorem live_of_empty {T : Type} (rb : RingBuffer T) (hv : Valid rb)
    (he : rb._head = rb._tail) : RingBufferAtomic.size rb = 0 ∧ live rb = [] := by
  have h0 : RingBufferAtomic.size rb = 0 := by
    rw [size_val rb hv, he]; simp
  exact ⟨h0, by simp [live, h0]⟩

/-- A state with both indices at `i < c + 1` and `c + 1` slots is valid. -/
theorem valid_of_empty {T : Type} (c i : Nat) (slots : List T)
    (hc : c + 1 < SIZE_MOD) (hi : i < c + 1) (hl : slots.length = c + 1) :
    Valid ({ _bufSize := c + 1, _buffer := slots, _head := i, _tail := i } : RingBuffer T) :=
  ⟨hl, Nat.succ_pos c, hc, hi, hi⟩

/-! ## The overwriting `put` -/

theorem filterMap_range_length {T : Type} (f : Nat → Option T) (n : Nat)
    (h : ∀ k, k < n → ∃ x, f k = some x) :
    ((List.range n).filterMap f).length = n := by
  induction n with
  | zero => simp
  | succ n ih =>
    obtain ⟨x, hx⟩ := h n (Nat.lt_succ_self n)
    rw [List.range_succ, List.filterMap_append, List.length_append,
      ih (fun k hk => h k (Nat.lt_succ_of_lt hk))]
    simp [hx]

/-- In a valid state there are `size()` live elements. -/
theorem live_length {T : Type} (rb : RingBuffer T) (hv : Valid rb) :
    (live rb).length = RingBufferAtomic.size rb := by
  unfold live
  apply filterMap_range_length
  intro k _
  have hlt : (rb._tail + k) % rb._bufSize < rb._buffer.length := by
    rw [hv.1]; exact Nat.mod_lt _ hv.2.1
  exact ⟨_, List.getElem?_eq_getElem hlt⟩

/-- The overwriting `put` on a buffer that is not full is the rejecting `put`. -/
theorem try_put_not_full {T : Type} (rb : RingBuffer T) (v : T)
    (hf : RingBufferAtomic.full rb = false) :
    RingBufferAtomicTry.put rb v = RingBufferAtomic.put rb v := by
  have h1 : ¬ RingBufferAtomic.next rb rb._head = rb._tail := by
    simpa [RingBufferAtomic.full] using hf
  have h2 : ¬ rb._tail = RingBufferAtomic.next rb rb._head := fun e => h1 e.symm
  simp [RingBufferAtomicTry.put, RingBufferAtomic.put, try_next_eq, h1, h2]

/-- The overwriting `put` on a full buffer: the new state. -/
theorem try_put_full {T : Type} (rb : RingBuffer T) (v : T)
    (hf : RingBufferAtomic.full rb = true) :
    RingBufferAtomicTry.put rb v =
      (true, { rb with _tail := RingBufferAtomic.next rb rb._tail,
                       _buffer := rb._buffer.set rb._head v,
                       _head := rb._tail }) := by
  have h1 : RingBufferAtomic.next rb rb._head = rb._tail := by
    simpa [RingBufferAtomic.full] using hf
  simp [RingBufferAtomicTry.put, try_next_eq, h1]

/-- The overwriting `put` on a full buffer with at least two slots is a `get` followed
by a rejecting `put`, as far as the state goes. -/
theorem try_put_full_eq {T : Type} (rb : RingBuffer T) (v out : T) (hv : Valid rb)
    (hf : RingBufferAtomic.full rb = true) (h2 : 2 ≤ rb._bufSize) :
    (RingBufferAtomicTry.put rb v).2 =
      (RingBufferAtomic.put (RingBufferAtomic.get rb out).2.2 v).2 := by
  have hsz := (full_iff_size rb hv).mp hf
  have hs : RingBufferAtomic.size rb ≠ 0 := by omega
  obtain ⟨gv, gb, gs⟩ := get_not_empty_valid rb out hs hv
  have hnf : RingBufferAtomic.size (RingBufferAtomic.get rb out).2.2 + 1 <
      (RingBufferAtomic.get rb out).2.2._bufSize := by rw [gb]; omega
  rw [put_not_full _ v gv hnf, try_put_full rb v hf, get_not_empty rb out hs hv]
  have h1 : RingBufferAtomic.next rb rb._head = rb._tail := by
    simpa [RingBufferAtomic.full] using hf
  simp only [RingBufferAtomic.next] at h1 ⊢
  simp [h1]

/-- The overwriting `put` keeps the state valid. -/
theorem try_put_valid {T : Type} (rb : RingBuffer T) (v : T) (hv : Valid rb) :
    Valid (RingBufferAtomicTry.put rb v).2 ∧
      (RingBufferAtomicTry.put rb v).2._bufSize = rb._bufSize := by
  obtain ⟨hl, hpos, hN, hh, ht⟩ := hv
  refine ⟨⟨?_, hpos, hN, ?_, ?_⟩, rfl⟩
  · simpa [RingBufferAtomicTry.put] using hl
  · exact Nat.mod_lt _ hpos
  · simp only [RingBufferAtomicTry.put]
    split
    · exact Nat.mod_lt _ hpos
    · exact ht

/-- The overwriting `put` appends the value to the live elements and, when the buffer
was full, drops the oldest one. -/
theorem try_put_live {T : Type} (rb : RingBuffer T) (v : T) (hv : Valid rb) :
    live (RingBufferAtomicTry.put rb v).2 =
      (live rb ++ [v]).drop ((live rb).length + 1 - (rb._bufSize - 1)) := by
  have hlen := live_length rb hv
  have hlt := size_lt_bufSize rb hv
  by_cases hf : RingBufferAtomic.full rb = true
  · have hsz := (full_iff_size rb hv).mp hf
    by_cases h2 : 2 ≤ rb._bufSize
    · have hs : RingBufferAtomic.size rb ≠ 0 := by omega
      obtain ⟨gv, gb, gs⟩ := get_not_empty_valid rb v hs hv
      have hl1 := get_not_empty_live rb v hs hv
      rw [try_put_full_eq rb v v hv hf h2, put_not_full_live _ v gv (by rw [gb]; omega)]
      have e : (live rb).length + 1 - (rb._bufSize - 1) = 1 := by omega
      rw [e]
      conv_rhs => rw [hl1]
      simp
    · obtain ⟨tv, tb⟩ := try_put_valid rb v hv
      have h1 : rb._bufSize = 1 := by have := hv.2.1; omega
      have z : RingBufferAtomic.size (RingBufferAtomicTry.put rb v).2 = 0 := by
        have := size_lt_bufSize _ tv
        rw [tb] at this; omega
      have e : (live rb).length + 1 - (rb._bufSize - 1) = 1 := by omega
      have l0 : live rb = [] := List.eq_nil_of_length_eq_zero (by omega)
      rw [e, l0]
      simp [live, z]
  · have hf2 : RingBufferAtomic.full rb = false := by simpa using hf
    have hsz : ¬ RingBufferAtomic.size rb + 1 = rb._bufSize := fun e =>
      hf ((full_iff_size rb hv).mpr e)
    have hnf : RingBufferAtomic.size rb + 1 < rb._bufSize := by omega
    rw [try_put_not_full rb v hf2, put_not_full_live rb v hv hnf]
    have e : (live rb).length + 1 - (rb._bufSize - 1) = 0 := by omega
    rw [e, List.drop_zero]

/-- Keeping the newest `c` elements twice is keeping them once. -/
theorem drop_append_drop {T : Type} (A vs : List T) (c : Nat) :
    (A.drop (A.length - c) ++ vs).drop ((A.drop (A.length - c)).length + vs.length - c) =
      (A ++ vs).drop (A.length + vs.length - c) := by
  rw [← List.drop_append_of_le_length (Nat.sub_le _ _), List.drop_drop, List.length_drop]
  congr 1
  omega

/-- A run of overwriting `put` calls: every call returns `true` and the newest
`_bufSize - 1` of the live and the inserted values are live afterwards. -/
theorem try_putAll_live {T : Type} (vs : List T) (rb : RingBuffer T) (hv : Valid rb) :
    (putAll RingBufferAtomicTry.put rb vs).1 = List.replicate vs.length true ∧
      Valid (putAll RingBufferAtomicTry.put rb vs).2 ∧
      (putAll RingBufferAtomicTry.put rb vs).2._bufSize = rb._bufSize ∧
      live (putAll RingBufferAtomicTry.put rb vs).2 =
        (live rb ++ vs).drop ((live rb).length + vs.length - (rb._bufSize - 1)) := by
  induction vs generalizing rb with
  | nil =>
    have h1 := live_length rb hv
    have h2 := size_lt_bufSize rb hv
    have e : (live rb).length - (rb._bufSize - 1) = 0 := by omega
    simp [putAll, hv, e]
  | cons v vs ih =>
    obtain ⟨tv, tb⟩ := try_put_valid rb v hv
    have tl := try_put_live rb v hv
    obtain ⟨i1, i2, i3, i4⟩ := ih (RingBufferAtomicTry.put rb v).2 tv
    simp only [putAll, List.length_cons, List.replicate_succ]
    refine ⟨by rw [i1]; rfl, i2, by rw [i3, tb], ?_⟩
    rw [i4, tb, tl]
    have key := drop_append_drop (live rb ++ [v]) vs (rb._bufSize - 1)
    simp only [List.length_append, List.length_singleton, List.append_assoc,
      List.singleton_append] at key ⊢
    rw [key]
    congr 1
    omega

/-- Method `size` for indices inside the array, without the machine arithmetic. -/
theorem size_val_of_lt {T : Type} (rb : RingBuffer T) (hN : rb._bufSize < SIZE_MOD)
    (hh : rb._head < rb._bufSize) (ht : rb._tail < rb._bufSize) :
    RingBufferAtomic.size rb =
      if rb._tail ≤ rb._head then rb._head - rb._tail
      else rb._head + rb._bufSize - rb._tail := by
  simp only [RingBufferAtomic.size, sizeSub, sizeAdd, SIZE_MOD, ge_iff_le] at *
  split <;> omega

/-- Method `size` is the distance from `_tail` to `_head` modulo `_bufSize`, over the
integers. -/
theorem size_emod {T : Type} (rb : RingBuffer T) (hN : rb._bufSize < SIZE_MOD)
    (hh : rb._head < rb._bufSize) (ht : rb._tail < rb._bufSize) :
    (RingBufferAtomic.size rb : Int) =
      ((rb._head : Int) - (rb._tail : Int)) % (rb._bufSize : Int) := by
  rw [size_val_of_lt rb hN hh ht]
  split
  · rw [Int.emod_eq_of_lt (by omega) (by omega)]
    omega
  · rw [← Int.add_emod_self, Int.emod_eq_of_lt (by omega) (by omega)]
    omega

/-- Method `next` returns an index of the array, whatever the counter. -/
theorem next_lt_of_pos {T : Type} (rb : RingBuffer T) (x : Nat) (hpos : 0 < rb._bufSize) :
    RingBufferAtomic.next rb x < rb._bufSize :=
  Nat.mod_lt _ hpos

/-- The constructor gives `c + 1` slots and both indices at 0. -/
theorem new_fields {T : Type} (uninit : Nat → T) (c : Nat) (hc : c + 1 < SIZE_MOD) :
    IndexInRange (RingBufferAtomic.new uninit c) ∧
      (RingBufferAtomic.new uninit c)._bufSize = c + 1 ∧
      (RingBufferAtomic.new uninit c)._buffer.length = c + 1 := by
  have e1 : sizeAdd c 1 = c + 1 := Nat.mod_eq_of_lt hc
  simp [IndexInRange, RingBufferAtomic.new, IRingBuffer, e1]

/-- The rejecting `put` keeps the indices in range and the array as long as it was. -/
theorem put_index_range {T : Type} (rb : RingBuffer T) (value : T) (hr : IndexInRange rb) :
    IndexInRange (RingBufferAtomic.put rb value).2 ∧
      (RingBufferAtomic.put rb value).2._bufSize = rb._bufSize ∧
      (RingBufferAtomic.put rb value).2._buffer.length = rb._buffer.length := by
  have hpos : 0 < rb._bufSize := Nat.lt_of_le_of_lt (Nat.zero_le _) hr.1
  have hn := next_lt_of_pos rb rb._head hpos
  unfold RingBufferAtomic.put
  simp only
  split
  · exact ⟨hr, rfl, rfl⟩
  · exact ⟨⟨hn, hr.2⟩, rfl, by simp⟩

/-- Method `get` keeps the indices in range and the array as long as it was. -/
theorem get_index_range {T : Type} (rb : RingBuffer T) (value : T) (hr : IndexInRange rb) :
    IndexInRange (RingBufferAtomic.get rb value).2.2 ∧
      (RingBufferAtomic.get rb value).2.2._bufSize = rb._bufSize ∧
      (RingBufferAtomic.get rb value).2.2._buffer.length = rb._buffer.length := by
  have hpos : 0 < rb._bufSize := Nat.lt_of_le_of_lt (Nat.zero_le _) hr.1
  have hn := next_lt_of_pos rb rb._tail hpos
  unfold RingBufferAtomic.get
  simp only
  split
  · exact ⟨hr, rfl, rfl⟩
  · exact ⟨⟨hr.1, hn⟩, rfl, rfl⟩

/-- The overwriting `put` keeps the indices in range and the array as long as it
was. -/
theorem try_put_index_range {T : Type} (rb : RingBuffer T) (value : T)
    (hr : IndexInRange rb) :
    IndexInRange (RingBufferAtomicTry.put rb value).2 ∧
      (RingBufferAtomicTry.put rb value).2._bufSize = rb._bufSize ∧
      (RingBufferAtomicTry.put rb value).2._buffer.length = rb._buffer.length := by
  have hpos : 0 < rb._bufSize := Nat.lt_of_le_of_lt (Nat.zero_le _) hr.1
  refine ⟨⟨next_lt_of_pos rb rb._head hpos, ?_⟩, rfl, by simp [RingBufferAtomicTry.put]⟩
  simp only [RingBufferAtomicTry.put]
  split
  · exact next_lt_of_pos rb _ hpos
  · exact hr.2

/-! ## Queries for indices inside the array -/

theorem full_iff_size_of_lt {T : Type} (rb : RingBuffer T) (hN : rb._bufSize < SIZE_MOD)
    (hh : rb._head < rb._bufSize) (ht : rb._tail < rb._bufSize) :
    RingBufferAtomic.full rb = true ↔ RingBufferAtomic.size rb + 1 = rb._bufSize := by
  have hs := size_val_of_lt rb hN hh ht
  have hn := next_val rb rb._head hN hh
  simp only [RingBufferAtomic.full, beq_iff_eq]
  rw [hn, hs]
  split <;> split <;> omega

theorem empty_iff_size_of_lt {T : Type} (rb : RingBuffer T) (hN : rb._bufSize < SIZE_MOD)
    (hh : rb._head < rb._bufSize) (ht : rb._tail < rb._bufSize) :
    RingBufferAtomic.empty rb = true ↔ RingBufferAtomic.size rb = 0 := by
  have hs := size_val_of_lt rb hN hh ht
  simp only [RingBufferAtomic.empty, beq_iff_eq]
  rw [hs]
  split <;> omega

theorem capacity_val_of_lt {T : Type} (rb : RingBuffer T) (hN : rb._bufSize < SIZE_MOD)
    (hpos : 0 < rb._bufSize) :
    RingBufferAtomic.capacity rb = rb._bufSize - 1 := by
  simp only [RingBufferAtomic.capacity, sizeSub, SIZE_MOD] at *
  omega

/-! ## The rejecting `put` and `get` in terms of the live elements -/

/-- A rejected `put`: the state is returned as it was. -/
theorem put_is_full {T : Type} (rb : RingBuffer T) (v : T)
    (hf : RingBufferAtomic.full rb = true) : RingBufferAtomic.put rb v = (false, rb) := by
  have h1 : RingBufferAtomic.next rb rb._head = rb._tail := by
    simpa [RingBufferAtomic.full] using hf
  simp [RingBufferAtomic.put, h1]

/-- A rejected `get`: state and output variable are returned as they were. -/
theorem get_is_empty {T : Type} (rb : RingBuffer T) (val : T)
    (he : RingBufferAtomic.empty rb = true) :
    RingBufferAtomic.get rb val = (false, val, rb) := by
  have h1 : rb._head = rb._tail := by simpa [RingBufferAtomic.empty] using he
  simp [RingBufferAtomic.get, h1]

/-- Method `put` of the non-overwrite variants, read on the live elements. -/
theorem put_spec {T : Type} (rb : RingBuffer T) (v : T) (hv : Valid rb) :
    (RingBufferAtomic.put rb v).1 = decide ((live rb).length < rb._bufSize - 1) ∧
      Valid (RingBufferAtomic.put rb v).2 ∧
      (RingBufferAtomic.put rb v).2._bufSize = rb._bufSize ∧
      live (RingBufferAtomic.put rb v).2 =
        if (live rb).length < rb._bufSize - 1 then live rb ++ [v] else live rb := by
  have hlen := live_length rb hv
  have hlt := size_lt_bufSize rb hv
  by_cases h : (live rb).length < rb._bufSize - 1
  · have hf : RingBufferAtomic.size rb + 1 < rb._bufSize := by omega
    obtain ⟨a, b, _⟩ := put_not_full_valid rb v hv hf
    refine ⟨?_, a, b, ?_⟩
    · rw [put_not_full rb v hv hf]; simp [h]
    · rw [put_not_full_live rb v hv hf, if_pos h]
  · have hf : RingBufferAtomic.full rb = true := (full_iff_size rb hv).mpr (by omega)
    rw [put_is_full rb v hf, if_neg h]
    exact ⟨by simp [h], hv, rfl, rfl⟩

/-- Method `get`, read on the live elements. -/
theorem get_spec {T : Type} (rb : RingBuffer T) (val : T) (hv : Valid rb) :
    (RingBufferAtomic.get rb val).1 = !(live rb).isEmpty ∧
      (RingBufferAtomic.get rb val).2.1 = (live rb).headD val ∧
      Valid (RingBufferAtomic.get rb val).2.2 ∧
      (RingBufferAtomic.get rb val).2.2._bufSize = rb._bufSize ∧
      live (RingBufferAtomic.get rb val).2.2 = (live rb).tail := by
  have hlen := live_length rb hv
  by_cases h : RingBufferAtomic.size rb = 0
  · have he : RingBufferAtomic.empty rb = true := (empty_iff_size rb hv).mpr h
    have l0 : live rb = [] := List.eq_nil_of_length_eq_zero (by omega)
    rw [get_is_empty rb val he, l0]
    exact ⟨rfl, rfl, hv, rfl, rfl⟩
  · obtain ⟨a, b, _⟩ := get_not_empty_valid rb val h hv
    have hl := get_not_empty_live rb val h hv
    have h1 : (RingBufferAtomic.get rb val).1 = true := by rw [get_not_empty rb val h hv]
    refine ⟨?_, ?_, a, b, ?_⟩
    · rw [h1, hl]; rfl
    · conv_rhs => rw [hl]
      rfl
    · conv_rhs => rw [hl]
      rfl

/-- The four queries, read on the live elements. -/
theorem query_spec {T : Type} (rb : RingBuffer T) (hv : Valid rb) :
    RingBufferAtomic.empty rb = (live rb).isEmpty ∧
      RingBufferAtomic.full rb = decide ((live rb).length = rb._bufSize - 1) ∧
      RingBufferAtomic.size rb = (live rb).length ∧
      RingBufferAtomic.capacity rb = rb._bufSize - 1 := by
  have hlen := live_length rb hv
  have he := empty_iff_size rb hv
  have hf := full_iff_size rb hv
  have hpos := hv.2.1
  refine ⟨?_, ?_, hlen.symm, capacity_val rb hv⟩
  · rw [Bool.eq_iff_iff, he, List.isEmpty_iff, ← List.length_eq_zero, hlen]
  · rw [Bool.eq_iff_iff, hf, decide_eq_true_iff, hlen]; omega

/-! ## Sequences of calls -/

theorem mutex_methods_eq {T : Type} :
    @RingBufferMutex.methods T = RingBufferAtomic.methods := by
  simp only [RingBufferMutex.methods, RingBufferAtomic.methods, mutex_get_eq, mutex_put_eq,
    mutex_empty_eq, mutex_full_eq, mutex_size_eq, mutex_capacity_eq]

/-- Two valid objects with the same number of slots and the same live elements answer
one call alike and stay so. -/
theorem call_congr {T : Type} (s1 s2 : RingBuffer T × T) (c : Call T)
    (h1 : Valid s1.1) (h2 : Valid s2.1) (hb : s1.1._bufSize = s2.1._bufSize)
    (hl : live s1.1 = live s2.1) (hval : s1.2 = s2.2) :
    (call RingBufferAtomic.methods s1 c).1 = (call RingBufferAtomic.methods s2 c).1 ∧
      Valid (call RingBufferAtomic.methods s1 c).2.1 ∧
      Valid (call RingBufferAtomic.methods s2 c).2.1 ∧
      (call RingBufferAtomic.methods s1 c).2.1._bufSize =
        (call RingBufferAtomic.methods s2 c).2.1._bufSize ∧
      live (call RingBufferAtomic.methods s1 c).2.1 =
        live (call RingBufferAtomic.methods s2 c).2.1 ∧
      (call RingBufferAtomic.methods s1 c).2.2 = (call RingBufferAtomic.methods s2 c).2.2 := by
  obtain ⟨e1, f1, z1, c1⟩ := query_spec s1.1 h1
  obtain ⟨e2, f2, z2, c2⟩ := query_spec s2.1 h2
  cases c with
  | put v =>
    obtain ⟨a1, b1, d1, l1⟩ := put_spec s1.1 v h1
    obtain ⟨a2, b2, d2, l2⟩ := put_spec s2.1 v h2
    simp only [call, RingBufferAtomic.methods]
    refine ⟨by rw [a1, a2, hl, hb], b1, b2, by rw [d1, d2, hb], by rw [l1, l2, hl, hb], hval⟩
  | get =>
    obtain ⟨a1, v1, b1, d1, l1⟩ := get_spec s1.1 s1.2 h1
    obtain ⟨a2, v2, b2, d2, l2⟩ := get_spec s2.1 s2.2 h2
    simp only [call, RingBufferAtomic.methods]
    refine ⟨by rw [a1, a2, v1, v2, hl, hval], b1, b2, by rw [d1, d2, hb], by rw [l1, l2, hl],
      by rw [v1, v2, hl, hval]⟩
  | empty =>
    simp only [call, RingBufferAtomic.methods]
    exact ⟨by rw [e1, e2, hl], h1, h2, hb, hl, hval⟩
  | full =>
    simp only [call, RingBufferAtomic.methods]
    exact ⟨by rw [f1, f2, hl, hb], h1, h2, hb, hl, hval⟩
  | size =>
    simp only [call, RingBufferAtomic.methods]
    exact ⟨by rw [z1, z2, hl], h1, h2, hb, hl, hval⟩
  | capacity =>
    simp only [call, RingBufferAtomic.methods]
    exact ⟨by rw [c1, c2, hb], h1, h2, hb, hl, hval⟩

/-- Two valid objects with the same number of slots and the same live elements answer
a sequence of calls alike. -/
theorem runCalls_congr {T : Type} (cs : List (Call T)) (s1 s2 : RingBuffer T × T)
    (h1 : Valid s1.1) (h2 : Valid s2.1) (hb : s1.1._bufSize = s2.1._bufSize)
    (hl : live s1.1 = live s2.1) (hval : s1.2 = s2.2) :
    (runCalls RingBufferAtomic.methods s1 cs).map Prod.fst =
      (runCalls RingBufferAtomic.methods s2 cs).map Prod.fst := by
  induction cs generalizing s1 s2 with
  | nil => rfl
  | cons c cs ih =>
    obtain ⟨r, v1, v2, b, l, w⟩ := call_congr s1 s2 c h1 h2 hb hl hval
    simp only [runCalls, List.map_cons]
    rw [r, ih _ _ v1 v2 b l w]

/-- A freshly constructed buffer is valid and has no live element. -/
theorem new_valid {T : Type} (uninit : Nat → T) (c : Nat) (hc : c + 1 < SIZE_MOD) :
    Valid (RingBufferAtomic.new uninit c) ∧
      (RingBufferAtomic.new uninit c)._bufSize = c + 1 ∧
      live (RingBufferAtomic.new uninit c) = [] := by
  obtain ⟨⟨a, b⟩, n, l⟩ := new_fields uninit c hc
  have hv : Valid (RingBufferAtomic.new uninit c) :=
    ⟨by rw [l, n], by rw [n]; omega, by rw [n]; exact hc, a, b⟩
  exact ⟨hv, n, (live_of_empty _ hv rfl).2⟩

/-- One mutating call on a valid object whose live elements are the items of a
reference queue with the capacity as bound: same answer, and the correspondence
holds again. -/
theorem call_refines {T : Type} (s : RingBuffer T × T) (q : BoundedQueue T × T) (o : Op T)
    (hv : Valid s.1) (hb : s.1._bufSize = q.1.bound + 1) (hl : live s.1 = q.1.items)
    (hval : s.2 = q.2) :
    (call RingBufferAtomic.methods s o.toCall).1 = (BoundedQueue.call q o).1 ∧
      Valid (call RingBufferAtomic.methods s o.toCall).2.1 ∧
      (call RingBufferAtomic.methods s o.toCall).2.1._bufSize =
        (BoundedQueue.call q o).2.1.bound + 1 ∧
      live (call RingBufferAtomic.methods s o.toCall).2.1 = (BoundedQueue.call q o).2.1.items ∧
      (call RingBufferAtomic.methods s o.toCall).2.2 = (BoundedQueue.call q o).2.2 := by
  cases o with
  | put v =>
    obtain ⟨a1, b1, d1, l1⟩ := put_spec s.1 v hv
    simp only [Op.toCall, call, BoundedQueue.call, RingBufferAtomic.methods,
      BoundedQueue.put]
    rw [a1, l1, d1, hl, hb, Nat.add_sub_cancel]
    by_cases h : q.1.items.length < q.1.bound
    · simp [h, b1, hval]
    · simp [h, b1, hval]
  | get =>
    obtain ⟨a1, v1, b1, d1, l1⟩ := get_spec s.1 s.2 hv
    simp only [Op.toCall, call, BoundedQueue.call, RingBufferAtomic.methods,
      BoundedQueue.get]
    rw [a1, v1, l1, d1, hl, hb, hval]
    rw [hval] at b1
    cases hq : q.1.items with
    | nil => simp [b1, hq]
    | cons x xs => simp [b1]

/-- A sequence of mutating calls on a valid object whose live elements are the items
of a reference queue with the capacity as bound: same answers, and after every call
`size()` is the length of the queue and the live elements are its items. -/
theorem runCalls_refines {T : Type} (os : List (Op T)) (s : RingBuffer T × T)
    (q : BoundedQueue T × T)
    (hv : Valid s.1) (hb : s.1._bufSize = q.1.bound + 1) (hl : live s.1 = q.1.items)
    (hval : s.2 = q.2) :
    (runCalls RingBufferAtomic.methods s (os.map Op.toCall)).map
        (fun x => (x.1, RingBufferAtomic.size x.2, live x.2)) =
      (BoundedQueue.runCalls q os).map (fun x => (x.1, x.2.items.length, x.2.items)) := by
  induction os generalizing s q with
  | nil => rfl
  | cons o os ih =>
    obtain ⟨r, v, b, l, w⟩ := call_refines s q o hv hb hl hval
    simp only [List.map_cons, runCalls, BoundedQueue.runCalls]
    rw [ih _ _ v b l w, r, l, ← live_length _ v, l]

/-! ## One slot -/

/-- With one slot `next` is always 0. -/
theorem next_one_slot {T : Type} (rb : RingBuffer T) (x : Nat) (h1 : rb._bufSize = 1) :
    RingBufferAtomic.next rb x = 0 := by
  unfold RingBufferAtomic.next
  rw [h1]
  exact Nat.mod_one _

/-- Construction with capacity 0: one slot, both indices at 0. -/
theorem new_zero {T : Type} (uninit : Nat → T) :
    (RingBufferAtomic.new uninit 0)._bufSize = 1 ∧ (RingBufferAtomic.new uninit 0)._head = 0 ∧
      (RingBufferAtomic.new uninit 0)._tail = 0 := by
  have e : sizeAdd 0 1 = 1 := by decide
  exact ⟨e, rfl, rfl⟩

/-- With one slot and both indices at 0 the non-overwrite `put` is rejected. -/
theorem put_one_slot {T : Type} (rb : RingBuffer T) (v : T) (h1 : rb._bufSize = 1)
    (ht : rb._tail = 0) : RingBufferAtomic.put rb v = (false, rb) := by
  apply put_is_full
  simp [RingBufferAtomic.full, next_one_slot rb _ h1, ht]

/-- With one slot and both indices at 0 `get` is rejected. -/
theorem get_one_slot {T : Type} (rb : RingBuffer T) (v : T) (hh : rb._head = 0)
    (ht : rb._tail = 0) : RingBufferAtomic.get rb v = (false, v, rb) := by
  apply get_is_empty
  simp [RingBufferAtomic.empty, hh, ht]

/-- With one slot and both indices at 0 the overwriting `put` leaves the indices at
0. -/
theorem try_put_one_slot {T : Type} (rb : RingBuffer T) (v : T) (h1 : rb._bufSize = 1) :
    (RingBufferAtomicTry.put rb v).2._bufSize = 1 ∧ (RingBufferAtomicTry.put rb v).2._head = 0 ∧
      (RingBufferAtomicTry.put rb v).2._tail = 0 ∨
    (RingBufferAtomicTry.put rb v).2._bufSize = 1 ∧ (RingBufferAtomicTry.put rb v).2._head = 0 ∧
      (RingBufferAtomicTry.put rb v).2._tail = rb._tail := by
  simp only [RingBufferAtomicTry.put, try_next_eq, next_one_slot rb _ h1]
  by_cases h : rb._tail = 0
  · left; simp [h, h1]
  · right; simp [h, h1]

/-- One slot and both indices at 0: kept by every call of the non-overwrite
variants. -/
theorem afterCalls_one_slot {T : Type} (os : List (Op T)) (s : RingBuffer T × T)
    (h1 : s.1._bufSize = 1) (hh : s.1._head = 0) (ht : s.1._tail = 0) :
    (afterCalls RingBufferAtomic.methods s (os.map Op.toCall)).1._bufSize = 1 ∧
      (afterCalls RingBufferAtomic.methods s (os.map Op.toCall)).1._head = 0 ∧
      (afterCalls RingBufferAtomic.methods s (os.map Op.toCall)).1._tail = 0 := by
  induction os generalizing s with
  | nil => exact ⟨h1, hh, ht⟩
  | cons o os ih =>
    simp only [List.map_cons, afterCalls]
    cases o with
    | put v =>
      apply ih
      · simp only [Op.toCall, call, RingBufferAtomic.methods, put_one_slot s.1 v h1 ht, h1]
      · simp only [Op.toCall, call, RingBufferAtomic.methods, put_one_slot s.1 v h1 ht, hh]
      · simp only [Op.toCall, call, RingBufferAtomic.methods, put_one_slot s.1 v h1 ht, ht]
    | get =>
      apply ih
      · simp only [Op.toCall, call, RingBufferAtomic.methods, get_one_slot s.1 s.2 hh ht, h1]
      · simp only [Op.toCall, call, RingBufferAtomic.methods, get_one_slot s.1 s.2 hh ht, hh]
      · simp only [Op.toCall, call, RingBufferAtomic.methods, get_one_slot s.1 s.2 hh ht, ht]

/-- One slot and both indices at 0: kept by every call of the overwrite variant. -/
theorem try_afterCalls_one_slot {T : Type} (os : List (Op T)) (s : RingBuffer T × T)
    (h1 : s.1._bufSize = 1) (hh : s.1._head = 0) (ht : s.1._tail = 0) :
    (afterCalls RingBufferAtomicTry.methods s (os.map Op.toCall)).1._bufSize = 1 ∧
      (afterCalls RingBufferAtomicTry.methods s (os.map Op.toCall)).1._head = 0 ∧
      (afterCalls RingBufferAtomicTry.methods s (os.map Op.toCall)).1._tail = 0 := by
  induction os generalizing s with
  | nil => exact ⟨h1, hh, ht⟩
  | cons o os ih =>
    simp only [List.map_cons, afterCalls]
    cases o with
    | put v =>
      have key : (RingBufferAtomicTry.put s.1 v).2._bufSize = 1 ∧
          (RingBufferAtomicTry.put s.1 v).2._head = 0 ∧
          (RingBufferAtomicTry.put s.1 v).2._tail = 0 := by
        rcases try_put_one_slot s.1 v h1 with h | h
        · exact h
        · exact ⟨h.1, h.2.1, by rw [h.2.2, ht]⟩
      exact ih _ key.1 key.2.1 key.2.2
    | get =>
      apply ih
      · simp only [Op.toCall, call, RingBufferAtomicTry.methods, try_get_eq,
          get_one_slot s.1 s.2 hh ht, h1]
      · simp only [Op.toCall, call, RingBufferAtomicTry.methods, try_get_eq,
          get_one_slot s.1 s.2 hh ht, hh]
      · simp only [Op.toCall, call, RingBufferAtomicTry.methods, try_get_eq,
          get_one_slot s.1 s.2 hh ht, ht]

/-! ## Payload of the stress test -/

theorem toUInt32_lt (x : Int) : toUInt32 x < 2 ^ 32 := by
  unfold toUInt32; omega

theorem toUInt64_toInt64 (n : Nat) (h : n < 2 ^ 64) : toUInt64 (toInt64 n) = n := by
  unfold toUInt64 toInt64
  split <;> omega

theorem toInt32_toUInt32 (x : Int) (h1 : -2 ^ 31 ≤ x) (h2 : x < 2 ^ 31) :
    toInt32 (toUInt32 x) = x := by
  unfold toUInt32 toInt32
  split <;> omega

/-- The mask `0xFFFFFFFF` keeps the low 32 bits. -/
theorem and_low_mask (b : Nat) : b &&& 0xFFFFFFFF = b % 2 ^ 32 := by
  have h := Nat.and_pow_two_sub_one_eq_mod b 32
  simpa using h

/-- A value shifted by 32 bits joined with a 32-bit value. -/
theorem shiftLeft_or_low (a b : Nat) (hb : b < 2 ^ 32) : a <<< 32 ||| b = 2 ^ 32 * a + b := by
  rw [Nat.shiftLeft_eq, Nat.mul_comm]
  exact (Nat.mul_add_lt_is_or hb a).symm

/-- The bits of `pack`: the sequence id above the payload. -/
theorem pack_bits (seq num : Int) :
    pack seq num = toInt64 (2 ^ 32 * toUInt32 seq + toUInt32 num) := by
  have ha := toUInt32_lt seq
  have hb := toUInt32_lt num
  unfold pack
  simp only
  have h1 : (toUInt32 seq <<< 32) % 2 ^ 64 = toUInt32 seq <<< 32 := by
    rw [Nat.shiftLeft_eq]; omega
  have h1b : toUInt32 seq <<< 32 < 2 ^ 64 := by rw [Nat.shiftLeft_eq]; omega
  have h2 : toUInt32 num &&& 0xFFFFFFFF = toUInt32 num := by
    rw [and_low_mask]; omega
  rw [h1, h2, toUInt64_toInt64 _ h1b, toUInt64_toInt64 _ (by omega), shiftLeft_or_low _ _ hb]

/-- The value of `pack` as a signed number. -/
theorem pack_val (seq num : Int) (h1 : -2 ^ 31 ≤ seq) (h2 : seq < 2 ^ 31) :
    pack seq num = 2 ^ 32 * seq + (toUInt32 num : Int) := by
  rw [pack_bits]
  have hb := toUInt32_lt num
  unfold toInt64
  have e : toUInt32 seq = (seq % 2 ^ 32).toNat := rfl
  split <;> omega

/-- Strict order of `pack` by sequence id. -/
theorem pack_lt (seq1 seq2 num1 num2 : Int) (h1 : -2 ^ 31 ≤ seq1) (h12 : seq1 < seq2)
    (h2 : seq2 < 2 ^ 31) : pack seq1 num1 < pack seq2 num2 := by
  rw [pack_val seq1 num1 h1 (by omega), pack_val seq2 num2 (by omega) h2]
  have a := toUInt32_lt num1
  have b := toUInt32_lt num2
  omega

/-- Every element of `producedFrom i rands` is a `pack` with a counter from `i` on. -/
theorem mem_producedFrom (rands : List Int) (i v : Int) (h : v ∈ producedFrom i rands) :
    ∃ k r, i ≤ k ∧ k < i + rands.length ∧ v = pack k r := by
  induction rands generalizing i with
  | nil => simp [producedFrom] at h
  | cons r rs ih =>
    simp only [producedFrom, List.mem_cons] at h
    rcases h with h | h
    · exact ⟨i, r, by omega, by simp only [List.length_cons]; omega, h⟩
    · obtain ⟨k, r', a, b, c⟩ := ih (i + 1) h
      exact ⟨k, r', by omega, by simp only [List.length_cons]; omega, c⟩

/-- The loop of `testAtomicDataRace` gives a strictly increasing vector while the
counter stays an `int32_t`. -/
theorem producedFrom_pairwise (rands : List Int) (i : Int) (h1 : -2 ^ 31 ≤ i)
    (h2 : i + rands.length ≤ 2 ^ 31) :
    List.Pairwise (fun a b => a < b) (producedFrom i rands) := by
  induction rands generalizing i with
  | nil => exact List.Pairwise.nil
  | cons r rs ih =>
    simp only [List.length_cons] at h2
    simp only [producedFrom]
    refine List.pairwise_cons.mpr ⟨?_, ih (i + 1) (by omega) (by omega)⟩
    intro v hv
    obtain ⟨k, r', a, b, c⟩ := mem_producedFrom rs (i + 1) v hv
    rw [c]
    exact pack_lt i k r r' h1 (by omega) (by omega)

/-! ## The steps of one thread alone are the sequential methods -/

/-- Four steps of the producer with no step of the consumer in between are one call of
`RingBufferAtomicTry::put` on the next value. -/
theorem producer_steps_put (s : Race) (v : Int) (rest : List Int)
    (hp : s.prod.point = .loadHead) (hv : s.prod.values = v :: rest) :
    (runThreads s [.producer, .producer, .producer, .producer]).buf =
        (RingBufferAtomicTry.put s.buf v).2 ∧
      (runThreads s [.producer, .producer, .producer, .producer]).prod.values = rest ∧
      (runThreads s [.producer, .producer, .producer, .producer]).prod.point = .loadHead ∧
      (runThreads s [.producer, .producer, .producer, .producer]).cons = s.cons := by
  obtain ⟨buf, prod, cons⟩ := s
  obtain ⟨values, point, head, nextHead⟩ := prod
  simp only at hp hv
  subst hp hv
  simp [runThreads, producerStep, RingBufferAtomicTry.put]

/-- Steps of the consumer with no step of the producer in between are one call of
`RingBufferAtomicTry::get` with `push_back` of the value when it returns `true`: two
steps when the buffer is empty, four otherwise. -/
theorem consumer_steps_get (s : Race) (hp : s.cons.point = .loadTail) :
    ((RingBufferAtomicTry.get s.buf s.cons.val).1 = false →
      (runThreads s [.consumer, .consumer]).buf = (RingBufferAtomicTry.get s.buf s.cons.val).2.2 ∧
      (runThreads s [.consumer, .consumer]).cons.val =
        (RingBufferAtomicTry.get s.buf s.cons.val).2.1 ∧
      (runThreads s [.consumer, .consumer]).cons.consumedValues = s.cons.consumedValues ∧
      (runThreads s [.consumer, .consumer]).cons.point = .loadTail) ∧
    ((RingBufferAtomicTry.get s.buf s.cons.val).1 = true →
      (runThreads s [.consumer, .consumer, .consumer, .consumer]).buf =
        (RingBufferAtomicTry.get s.buf s.cons.val).2.2 ∧
      (runThreads s [.consumer, .consumer, .consumer, .consumer]).cons.val =
        (RingBufferAtomicTry.get s.buf s.cons.val).2.1 ∧
      (runThreads s [.consumer, .consumer, .consumer, .consumer]).cons.consumedValues =
        s.cons.consumedValues ++ [(RingBufferAtomicTry.get s.buf s.cons.val).2.1] ∧
      (runThreads s [.consumer, .consumer, .consumer, .consumer]).cons.point = .loadTail) := by
  obtain ⟨buf, prod, cons⟩ := s
  obtain ⟨point, tail, val, consumedValues⟩ := cons
  simp only at hp
  subst hp
  by_cases h : buf._tail = buf._head
  · simp [runThreads, consumerStep, RingBufferAtomicTry.get, h]
  · simp [runThreads, consumerStep, RingBufferAtomicTry.get, h]

/-! ## Claims -/

/-- C1. FIFO order in the non-overwrite variants (`RingBufferMutex`, `RingBufferAtomic`):
for a buffer of capacity `c` (`c + 1` slots) that is empty with `_head == _tail == i`
for any index `i < c + 1`, and any values `vs` with at most `c` of them, every
`put` of the run `put(v1), ..., put(vn)` returns `true`, and the following `n` calls
of `get` each return `true` and write exactly `v1, ..., vn`, in that order, to the
output variable. -/
theorem fifo_order {T : Type} (c i : Nat) (slots vs : List T) (val : T)
    (hc : c + 1 < SIZE_MOD) (hi : i < c + 1) (hl : slots.length = c + 1)
    (hn : vs.length ≤ c) :
    ((putAll RingBufferMutex.put ⟨c + 1, slots, i, i⟩ vs).1 = List.replicate vs.length true ∧
      (getN RingBufferMutex.get (putAll RingBufferMutex.put ⟨c + 1, slots, i, i⟩ vs).2
          val vs.length).1 = vs.map (fun v => (true, v))) ∧
    ((putAll RingBufferAtomic.put ⟨c + 1, slots, i, i⟩ vs).1 = List.replicate vs.length true ∧
      (getN RingBufferAtomic.get (putAll RingBufferAtomic.put ⟨c + 1, slots, i, i⟩ vs).2
          val vs.length).1 = vs.map (fun v => (true, v))) := by
  have hv := valid_of_empty c i slots hc hi hl
  obtain ⟨h0, hl0⟩ := live_of_empty _ hv rfl
  obtain ⟨p1, p2, _, p4, p5⟩ := putAll_fits vs _ hv (by rw [h0]; simp only; omega)
  obtain ⟨g1, _⟩ := getN_live vs.length _ val p2 (by rw [p4]; omega)
  rw [p5, hl0, List.nil_append, List.take_length] at g1
  rw [mutex_put_eq, mutex_get_eq]
  exact ⟨⟨p1, g1⟩, ⟨p1, g1⟩⟩

/-- Witness of `fifo_order`: capacity 2, both indices at the last slot (the write
position wraps round), values 7 and 8. -/
theorem fifo_order_witness :
    ((putAll RingBufferMutex.put ⟨2 + 1, [0, 0, 0], 2, 2⟩ [7, 8]).1 = [true, true] ∧
      (getN RingBufferMutex.get (putAll RingBufferMutex.put ⟨2 + 1, [0, 0, 0], 2, 2⟩ [7, 8]).2
          0 2).1 = [(true, 7), (true, 8)]) ∧
    ((putAll RingBufferAtomic.put ⟨2 + 1, [0, 0, 0], 2, 2⟩ [7, 8]).1 = [true, true] ∧
      (getN RingBufferAtomic.get (putAll RingBufferAtomic.put ⟨2 + 1, [0, 0, 0], 2, 2⟩ [7, 8]).2
          0 2).1 = [(true, 7), (true, 8)]) :=
  fifo_order 2 2 [0, 0, 0] [7, 8] 0 (by decide) (by decide) rfl (by decide)

/-- C2. Insert into a full buffer is rejected atomically in the non-overwrite variants
(`RingBufferMutex`, `RingBufferAtomic`): in every state, `put(value)` returns `false`
if and only if `full()` is true beforehand, that is `next(_head) == _tail`, and in
that case the whole state (`_head`, `_tail`, every slot) is as before, so `size()` is
unchanged. -/
theorem put_full_rejected {T : Type} (rb : RingBuffer T) (value : T) :
    (((RingBufferMutex.put rb value).1 = false ↔ RingBufferMutex.full rb = true) ∧
      (RingBufferMutex.full rb = true ↔ RingBufferMutex.next rb rb._head = rb._tail) ∧
      (RingBufferMutex.full rb = true →
        (RingBufferMutex.put rb value).2 = rb ∧
        RingBufferMutex.size (RingBufferMutex.put rb value).2 = RingBufferMutex.size rb)) ∧
    (((RingBufferAtomic.put rb value).1 = false ↔ RingBufferAtomic.full rb = true) ∧
      (RingBufferAtomic.full rb = true ↔ RingBufferAtomic.next rb rb._head = rb._tail) ∧
      (RingBufferAtomic.full rb = true →
        (RingBufferAtomic.put rb value).2 = rb ∧
        RingBufferAtomic.size (RingBufferAtomic.put rb value).2 = RingBufferAtomic.size rb)) := by
  have key : ((RingBufferAtomic.put rb value).1 = false ↔ RingBufferAtomic.full rb = true) ∧
      (RingBufferAtomic.full rb = true ↔ RingBufferAtomic.next rb rb._head = rb._tail) ∧
      (RingBufferAtomic.full rb = true →
        (RingBufferAtomic.put rb value).2 = rb ∧
        RingBufferAtomic.size (RingBufferAtomic.put rb value).2 = RingBufferAtomic.size rb) := by
    by_cases h : RingBufferAtomic.next rb rb._head = rb._tail
    · simp [RingBufferAtomic.put, RingBufferAtomic.full, h]
    · simp [RingBufferAtomic.put, RingBufferAtomic.full, h]
  rw [mutex_put_eq, mutex_full_eq, mutex_size_eq, mutex_next_eq]
  exact ⟨key, key⟩

/-- C3. Remove from an empty buffer is rejected atomically in all three variants: in
every state, `get(value)` returns `false` if and only if `empty()` is true
beforehand, that is `_head == _tail`, and in that case the whole state (`_head`,
`_tail`, every slot) and the caller's output variable are as before, so `size()` is
unchanged. -/
theorem get_empty_rejected {T : Type} (rb : RingBuffer T) (value : T) :
    (((RingBufferMutex.get rb value).1 = false ↔ RingBufferMutex.empty rb = true) ∧
      (RingBufferMutex.empty rb = true ↔ rb._head = rb._tail) ∧
      (RingBufferMutex.empty rb = true →
        (RingBufferMutex.get rb value).2.2 = rb ∧ (RingBufferMutex.get rb value).2.1 = value ∧
        RingBufferMutex.size (RingBufferMutex.get rb value).2.2 = RingBufferMutex.size rb)) ∧
    (((RingBufferAtomic.get rb value).1 = false ↔ RingBufferAtomic.empty rb = true) ∧
      (RingBufferAtomic.empty rb = true ↔ rb._head = rb._tail) ∧
      (RingBufferAtomic.empty rb = true →
        (RingBufferAtomic.get rb value).2.2 = rb ∧ (RingBufferAtomic.get rb value).2.1 = value ∧
        RingBufferAtomic.size (RingBufferAtomic.get rb value).2.2 = RingBufferAtomic.size rb)) ∧
    (((RingBufferAtomicTry.get rb value).1 = false ↔ RingBufferAtomicTry.empty rb = true) ∧
      (RingBufferAtomicTry.empty rb = true ↔ rb._head = rb._tail) ∧
      (RingBufferAtomicTry.empty rb = true →
        (RingBufferAtomicTry.get rb value).2.2 = rb ∧
        (RingBufferAtomicTry.get rb value).2.1 = value ∧
        RingBufferAtomicTry.size (RingBufferAtomicTry.get rb value).2.2 =
          RingBufferAtomicTry.size rb)) := by
  have key : ((RingBufferAtomic.get rb value).1 = false ↔ RingBufferAtomic.empty rb = true) ∧
      (RingBufferAtomic.empty rb = true ↔ rb._head = rb._tail) ∧
      (RingBufferAtomic.empty rb = true →
        (RingBufferAtomic.get rb value).2.2 = rb ∧ (RingBufferAtomic.get rb value).2.1 = value ∧
        RingBufferAtomic.size (RingBufferAtomic.get rb value).2.2 = RingBufferAtomic.size rb) := by
    by_cases h : rb._head = rb._tail
    · simp [RingBufferAtomic.get, RingBufferAtomic.empty, h]
    · have h2 : ¬ rb._tail = rb._head := fun e => h e.symm
      simp [RingBufferAtomic.get, RingBufferAtomic.empty, h, h2]
  rw [mutex_get_eq, mutex_empty_eq, mutex_size_eq, try_get_eq, try_empty_eq, try_size_eq]
  exact ⟨key, key, key⟩

/-- C4. Overwrite variant keeps exactly the newest `c` values: for a
`RingBufferAtomicTry` of capacity `c` that is empty (`_head == _tail == i`, any
`i < c + 1`) and any `c + k` values `vs`, after `put` of each value in order with no
`get` in between (every `put` returning `true`), the next `c` calls of `get` each
return `true` and yield `v(k+1), ..., v(c+k)` in that order, and the `(c+1)`-th `get`
returns `false`. -/
theorem overwrite_keeps_newest {T : Type} (c k i : Nat) (slots vs : List T) (val : T)
    (hc : c + 1 < SIZE_MOD) (hi : i < c + 1) (hl : slots.length = c + 1)
    (hk : vs.length = c + k) :
    (putAll RingBufferAtomicTry.put ⟨c + 1, slots, i, i⟩ vs).1 = List.replicate (c + k) true ∧
    (getN RingBufferAtomicTry.get (putAll RingBufferAtomicTry.put ⟨c + 1, slots, i, i⟩ vs).2
        val c).1 = (vs.drop k).map (fun v => (true, v)) ∧
    (RingBufferAtomicTry.get
        (getN RingBufferAtomicTry.get (putAll RingBufferAtomicTry.put ⟨c + 1, slots, i, i⟩ vs).2
          val c).2.2
        (getN RingBufferAtomicTry.get (putAll RingBufferAtomicTry.put ⟨c + 1, slots, i, i⟩ vs).2
          val c).2.1).1 = false := by
  have hv := valid_of_empty c i slots hc hi hl
  obtain ⟨_, hl0⟩ := live_of_empty _ hv rfl
  obtain ⟨p1, p2, p3, p4⟩ := try_putAll_live vs _ hv
  rw [hl0] at p4
  simp only [List.nil_append, List.length_nil, Nat.zero_add, Nat.add_sub_cancel] at p4
  have e : vs.length - c = k := by omega
  rw [e] at p4
  have hsz : RingBufferAtomic.size (putAll RingBufferAtomicTry.put ⟨c + 1, slots, i, i⟩ vs).2
      = c := by
    rw [← live_length _ p2, p4, List.length_drop]; omega
  obtain ⟨g1, g2, _, _, g5, _⟩ := getN_live c _ val p2 (by rw [hsz])
  rw [try_get_eq]
  refine ⟨by rw [p1, hk], ?_, ?_⟩
  · rw [g1, p4, List.take_of_length_le (by rw [List.length_drop]; omega)]
  · have z : RingBufferAtomic.size (getN RingBufferAtomic.get
        (putAll RingBufferAtomicTry.put ⟨c + 1, slots, i, i⟩ vs).2 val c).2.2 = 0 := by omega
    have he := (empty_iff_size _ g2).mpr z
    simp only [RingBufferAtomic.empty, beq_iff_eq] at he
    simp [RingBufferAtomic.get, he]

/-- Witness of `overwrite_keeps_newest`, the example of the specification: capacity 3,
`put` of A, B, C, D (here 10, 11, 12, 13), then `get` yields B, C, D and a fourth
`get` returns `false`. -/
theorem overwrite_keeps_newest_witness :
    (putAll RingBufferAtomicTry.put ⟨3 + 1, [0, 0, 0, 0], 0, 0⟩ [10, 11, 12, 13]).1 =
      List.replicate (3 + 1) true ∧
    (getN RingBufferAtomicTry.get
        (putAll RingBufferAtomicTry.put ⟨3 + 1, [0, 0, 0, 0], 0, 0⟩ [10, 11, 12, 13]).2
        0 3).1 = ([10, 11, 12, 13].drop 1).map (fun v => (true, v)) ∧
    (RingBufferAtomicTry.get
        (getN RingBufferAtomicTry.get
          (putAll RingBufferAtomicTry.put ⟨3 + 1, [0, 0, 0, 0], 0, 0⟩ [10, 11, 12, 13]).2
          0 3).2.2
        (getN RingBufferAtomicTry.get
          (putAll RingBufferAtomicTry.put ⟨3 + 1, [0, 0, 0, 0], 0, 0⟩ [10, 11, 12, 13]).2
          0 3).2.1).1 = false :=
  overwrite_keeps_newest 3 1 0 [0, 0, 0, 0] [10, 11, 12, 13] 0 (by decide) (by decide) rfl rfl

/-- C5. `RingBufferAtomicTry::put` never fails and evicts exactly the oldest element
when full: in every valid state (`_head`, `_tail` below `N = _bufSize`) `put` returns
`true`; if the buffer was full beforehand (`next(_head) == _tail`) then afterwards
`_tail` is `(old _tail + 1) mod N`, `_head` is `(old _head + 1) mod N`, the slot at
the old `_head` holds the value and the live elements are the old ones followed by
the value, less the oldest; if it was not full, `_tail` is unchanged. -/
theorem try_put_never_fails {T : Type} (rb : RingBuffer T) (value : T) (hv : Valid rb) :
    (RingBufferAtomicTry.put rb value).1 = true ∧
    (RingBufferAtomicTry.full rb = true →
      (RingBufferAtomicTry.put rb value).2._tail = (rb._tail + 1) % rb._bufSize ∧
      (RingBufferAtomicTry.put rb value).2._head = (rb._head + 1) % rb._bufSize ∧
      (RingBufferAtomicTry.put rb value).2._buffer[rb._head]? = some value ∧
      live (RingBufferAtomicTry.put rb value).2 = (live rb ++ [value]).drop 1) ∧
    (RingBufferAtomicTry.full rb = false →
      (RingBufferAtomicTry.put rb value).2._tail = rb._tail) := by
  have tl := try_put_live rb value hv
  have hlen := live_length rb hv
  obtain ⟨hl, hpos, hN, hh, ht⟩ := hv
  have n1 : ∀ x, x < rb._bufSize → RingBufferAtomic.next rb x = (x + 1) % rb._bufSize := by
    intro x hx
    unfold RingBufferAtomic.next sizeAdd
    rw [Nat.mod_eq_of_lt (a := x + 1) (by omega)]
  rw [try_full_eq]
  refine ⟨rfl, ?_, ?_⟩
  · intro hf
    have hsz := (full_iff_size rb ⟨hl, hpos, hN, hh, ht⟩).mp hf
    have e : (live rb).length + 1 - (rb._bufSize - 1) = 1 := by omega
    rw [e] at tl
    refine ⟨?_, ?_, ?_, tl⟩
    · rw [try_put_full rb value hf]; exact n1 _ ht
    · simp only [RingBufferAtomicTry.put, try_next_eq]; exact n1 _ hh
    · have hlt : rb._head < rb._buffer.length := by rw [hl]; exact hh
      simp [RingBufferAtomicTry.put, hlt]
  · intro hf
    rw [try_put_not_full rb value hf]
    have h1 : ¬ RingBufferAtomic.next rb rb._head = rb._tail := by
      simpa [RingBufferAtomic.full] using hf
    simp [RingBufferAtomic.put, h1]

/-- Witness of `try_put_never_fails`: a full buffer of capacity 2 with `_head` at the
last slot. -/
theorem try_put_never_fails_witness :
    (RingBufferAtomicTry.put ⟨3, [1, 2, 3], 2, 0⟩ 9).1 = true ∧
    (RingBufferAtomicTry.full (⟨3, [1, 2, 3], 2, 0⟩ : RingBuffer Nat) = true →
      (RingBufferAtomicTry.put ⟨3, [1, 2, 3], 2, 0⟩ 9).2._tail = (0 + 1) % 3 ∧
      (RingBufferAtomicTry.put ⟨3, [1, 2, 3], 2, 0⟩ 9).2._head = (2 + 1) % 3 ∧
      (RingBufferAtomicTry.put ⟨3, [1, 2, 3], 2, 0⟩ 9).2._buffer[2]? = some 9 ∧
      live (RingBufferAtomicTry.put ⟨3, [1, 2, 3], 2, 0⟩ 9).2 =
        (live (⟨3, [1, 2, 3], 2, 0⟩ : RingBuffer Nat) ++ [9]).drop 1) ∧
    (RingBufferAtomicTry.full (⟨3, [1, 2, 3], 2, 0⟩ : RingBuffer Nat) = false →
      (RingBufferAtomicTry.put ⟨3, [1, 2, 3], 2, 0⟩ 9).2._tail = 0) :=
  try_put_never_fails ⟨3, [1, 2, 3], 2, 0⟩ 9 (by decide)

/-- C6. Occupancy after `n` inserts: for a non-overwrite buffer (`RingBufferMutex`,
`RingBufferAtomic`) of capacity `c` that is empty with `_head == _tail == i` for any
index `i < c + 1`, after `n <= c` calls of `put` with no `get` in between every
`put` has returned `true`, `size() == n`, and `full()` is true if and only if
`n == c`. -/
theorem occupancy_after_puts {T : Type} (c i : Nat) (slots vs : List T)
    (hc : c + 1 < SIZE_MOD) (hi : i < c + 1) (hl : slots.length = c + 1)
    (hn : vs.length ≤ c) :
    ((putAll RingBufferMutex.put ⟨c + 1, slots, i, i⟩ vs).1 = List.replicate vs.length true ∧
      RingBufferMutex.size (putAll RingBufferMutex.put ⟨c + 1, slots, i, i⟩ vs).2 = vs.length ∧
      (RingBufferMutex.full (putAll RingBufferMutex.put ⟨c + 1, slots, i, i⟩ vs).2 = true ↔
        vs.length = c)) ∧
    ((putAll RingBufferAtomic.put ⟨c + 1, slots, i, i⟩ vs).1 = List.replicate vs.length true ∧
      RingBufferAtomic.size (putAll RingBufferAtomic.put ⟨c + 1, slots, i, i⟩ vs).2 = vs.length ∧
      (RingBufferAtomic.full (putAll RingBufferAtomic.put ⟨c + 1, slots, i, i⟩ vs).2 = true ↔
        vs.length = c)) := by
  have hv := valid_of_empty c i slots hc hi hl
  obtain ⟨h0, _⟩ := live_of_empty _ hv rfl
  obtain ⟨p1, p2, p3, p4, _⟩ := putAll_fits vs _ hv (by rw [h0]; simp only; omega)
  rw [h0, Nat.zero_add] at p4
  have hfull : RingBufferAtomic.full (putAll RingBufferAtomic.put ⟨c + 1, slots, i, i⟩ vs).2
      = true ↔ vs.length = c := by
    rw [full_iff_size _ p2, p3, p4]
    simp only
    omega
  rw [mutex_put_eq, mutex_size_eq, mutex_full_eq]
  exact ⟨⟨p1, p4, hfull⟩, ⟨p1, p4, hfull⟩⟩

/-- Witness of `occupancy_after_puts`: capacity 2, indices at slot 1, two inserts. -/
theorem occupancy_after_puts_witness :
    ((putAll RingBufferMutex.put ⟨2 + 1, [0, 0, 0], 1, 1⟩ [7, 8]).1 = [true, true] ∧
      RingBufferMutex.size (putAll RingBufferMutex.put ⟨2 + 1, [0, 0, 0], 1, 1⟩ [7, 8]).2 = 2 ∧
      (RingBufferMutex.full (putAll RingBufferMutex.put ⟨2 + 1, [0, 0, 0], 1, 1⟩ [7, 8]).2 = true ↔
        2 = 2)) ∧
    ((putAll RingBufferAtomic.put ⟨2 + 1, [0, 0, 0], 1, 1⟩ [7, 8]).1 = [true, true] ∧
      RingBufferAtomic.size (putAll RingBufferAtomic.put ⟨2 + 1, [0, 0, 0], 1, 1⟩ [7, 8]).2 = 2 ∧
      (RingBufferAtomic.full (putAll RingBufferAtomic.put ⟨2 + 1, [0, 0, 0], 1, 1⟩ [7, 8]).2 = true ↔
        2 = 2)) :=
  occupancy_after_puts 2 1 [0, 0, 0] [7, 8] (by decide) (by decide) rfl (by decide)

/-- C7. Fresh-buffer state: for every capacity `c > 0` whose slot count `c + 1` is a
`size_t`, and each of the three variants, a buffer just constructed with capacity `c`
(whatever the allocation left in the slots) reports `capacity() == c`, `size() == 0`,
`empty() == true` and `full() == false`. -/
theorem fresh_buffer {T : Type} (uninit : Nat → T) (c : Nat) (h0 : 0 < c)
    (hc : c + 1 < SIZE_MOD) :
    (RingBufferMutex.capacity (RingBufferMutex.new uninit c) = c ∧
      RingBufferMutex.size (RingBufferMutex.new uninit c) = 0 ∧
      RingBufferMutex.empty (RingBufferMutex.new uninit c) = true ∧
      RingBufferMutex.full (RingBufferMutex.new uninit c) = false) ∧
    (RingBufferAtomic.capacity (RingBufferAtomic.new uninit c) = c ∧
      RingBufferAtomic.size (RingBufferAtomic.new uninit c) = 0 ∧
      RingBufferAtomic.empty (RingBufferAtomic.new uninit c) = true ∧
      RingBufferAtomic.full (RingBufferAtomic.new uninit c) = false) ∧
    (RingBufferAtomicTry.capacity (RingBufferAtomicTry.new uninit c) = c ∧
      RingBufferAtomicTry.size (RingBufferAtomicTry.new uninit c) = 0 ∧
      RingBufferAtomicTry.empty (RingBufferAtomicTry.new uninit c) = true ∧
      RingBufferAtomicTry.full (RingBufferAtomicTry.new uninit c) = false) := by
  have key : RingBufferAtomic.capacity (RingBufferAtomic.new uninit c) = c ∧
      RingBufferAtomic.size (RingBufferAtomic.new uninit c) = 0 ∧
      RingBufferAtomic.empty (RingBufferAtomic.new uninit c) = true ∧
      RingBufferAtomic.full (RingBufferAtomic.new uninit c) = false := by
    have e1 : sizeAdd c 1 = c + 1 := Nat.mod_eq_of_lt hc
    have e2 : sizeAdd 0 1 = 1 := by decide
    have e3 : 1 % (c + 1) = 1 := Nat.mod_eq_of_lt (by omega)
    refine ⟨?_, ?_, ?_, ?_⟩
    · simp only [RingBufferAtomic.capacity, RingBufferAtomic.new, IRingBuffer, e1]
      simp only [sizeSub, SIZE_MOD] at *
      omega
    · simp only [RingBufferAtomic.size, RingBufferAtomic.new, IRingBuffer]
      rw [if_pos (Nat.le_refl 0)]
      decide
    · simp [RingBufferAtomic.empty, RingBufferAtomic.new, IRingBuffer]
    · simp [RingBufferAtomic.full, RingBufferAtomic.next, RingBufferAtomic.new, IRingBuffer,
        e1, e2, e3]
  rw [mutex_capacity_eq, mutex_size_eq, mutex_empty_eq, mutex_full_eq, mutex_new_eq,
    try_capacity_eq, try_size_eq, try_empty_eq, try_full_eq, try_new_eq]
  exact ⟨key, key, key⟩

/-- Witness of `fresh_buffer`: capacity 100, as in `basicTestMutex` and
`basicTestAtomic`. -/
theorem fresh_buffer_witness :
    (RingBufferMutex.capacity (RingBufferMutex.new (fun _ => (0 : Int)) 100) = 100 ∧
      RingBufferMutex.size (RingBufferMutex.new (fun _ => (0 : Int)) 100) = 0 ∧
      RingBufferMutex.empty (RingBufferMutex.new (fun _ => (0 : Int)) 100) = true ∧
      RingBufferMutex.full (RingBufferMutex.new (fun _ => (0 : Int)) 100) = false) ∧
    (RingBufferAtomic.capacity (RingBufferAtomic.new (fun _ => (0 : Int)) 100) = 100 ∧
      RingBufferAtomic.size (RingBufferAtomic.new (fun _ => (0 : Int)) 100) = 0 ∧
      RingBufferAtomic.empty (RingBufferAtomic.new (fun _ => (0 : Int)) 100) = true ∧
      RingBufferAtomic.full (RingBufferAtomic.new (fun _ => (0 : Int)) 100) = false) ∧
    (RingBufferAtomicTry.capacity (RingBufferAtomicTry.new (fun _ => (0 : Int)) 100) = 100 ∧
      RingBufferAtomicTry.size (RingBufferAtomicTry.new (fun _ => (0 : Int)) 100) = 0 ∧
      RingBufferAtomicTry.empty (RingBufferAtomicTry.new (fun _ => (0 : Int)) 100) = true ∧
      RingBufferAtomicTry.full (RingBufferAtomicTry.new (fun _ => (0 : Int)) 100) = false) :=
  fresh_buffer (fun _ => (0 : Int)) 100 (by decide) (by decide)

/-- C8. Round trip to empty: for a non-overwrite buffer (`RingBufferMutex`,
`RingBufferAtomic`) of capacity `c` that is empty with `_head == _tail == i` for any
index `i < c + 1`, `c` calls of `put` followed by `c` calls of `get` all return `true`
and leave the buffer empty: `size() == 0`, `empty() == true`, and `_head == _tail`
again. -/
theorem round_trip {T : Type} (c i : Nat) (slots vs : List T) (val : T)
    (hc : c + 1 < SIZE_MOD) (hi : i < c + 1) (hl : slots.length = c + 1)
    (hn : vs.length = c) :
    ((putAll RingBufferMutex.put ⟨c + 1, slots, i, i⟩ vs).1 = List.replicate c true ∧
      ((getN RingBufferMutex.get (putAll RingBufferMutex.put ⟨c + 1, slots, i, i⟩ vs).2
          val c).1.map Prod.fst) = List.replicate c true ∧
      RingBufferMutex.size (getN RingBufferMutex.get
          (putAll RingBufferMutex.put ⟨c + 1, slots, i, i⟩ vs).2 val c).2.2 = 0 ∧
      RingBufferMutex.empty (getN RingBufferMutex.get
          (putAll RingBufferMutex.put ⟨c + 1, slots, i, i⟩ vs).2 val c).2.2 = true ∧
      (getN RingBufferMutex.get
          (putAll RingBufferMutex.put ⟨c + 1, slots, i, i⟩ vs).2 val c).2.2._head =
        (getN RingBufferMutex.get
          (putAll RingBufferMutex.put ⟨c + 1, slots, i, i⟩ vs).2 val c).2.2._tail) ∧
    ((putAll RingBufferAtomic.put ⟨c + 1, slots, i, i⟩ vs).1 = List.replicate c true ∧
      ((getN RingBufferAtomic.get (putAll RingBufferAtomic.put ⟨c + 1, slots, i, i⟩ vs).2
          val c).1.map Prod.fst) = List.replicate c true ∧
      RingBufferAtomic.size (getN RingBufferAtomic.get
          (putAll RingBufferAtomic.put ⟨c + 1, slots, i, i⟩ vs).2 val c).2.2 = 0 ∧
      RingBufferAtomic.empty (getN RingBufferAtomic.get
          (putAll RingBufferAtomic.put ⟨c + 1, slots, i, i⟩ vs).2 val c).2.2 = true ∧
      (getN RingBufferAtomic.get
          (putAll RingBufferAtomic.put ⟨c + 1, slots, i, i⟩ vs).2 val c).2.2._head =
        (getN RingBufferAtomic.get
          (putAll RingBufferAtomic.put ⟨c + 1, slots, i, i⟩ vs).2 val c).2.2._tail) := by
  have hv := valid_of_empty c i slots hc hi hl
  obtain ⟨h0, hl0⟩ := live_of_empty _ hv rfl
  obtain ⟨p1, p2, _, p4, p5⟩ := putAll_fits vs _ hv (by rw [h0]; simp only; omega)
  rw [h0, Nat.zero_add, hn] at p4
  rw [hn] at p1
  obtain ⟨g1, g2, _, _, g5, _⟩ := getN_live c _ val p2 (by rw [p4])
  rw [p4] at g5
  have z : RingBufferAtomic.size (getN RingBufferAtomic.get
      (putAll RingBufferAtomic.put ⟨c + 1, slots, i, i⟩ vs).2 val c).2.2 = 0 := by omega
  have he := (empty_iff_size _ g2).mpr z
  have hht := he
  simp only [RingBufferAtomic.empty, beq_iff_eq] at hht
  have gt : ((getN RingBufferAtomic.get (putAll RingBufferAtomic.put ⟨c + 1, slots, i, i⟩ vs).2
      val c).1.map Prod.fst) = List.replicate c true := by
    rw [g1, p5, hl0, List.nil_append, List.take_of_length_le (by omega), List.map_map]
    simp [Function.comp, hn]
  rw [mutex_put_eq, mutex_get_eq, mutex_size_eq, mutex_empty_eq]
  exact ⟨⟨p1, gt, z, he, hht⟩, ⟨p1, gt, z, he, hht⟩⟩

/-- Witness of `round_trip`: capacity 2, indices at slot 1. -/
theorem round_trip_witness :
    ((putAll RingBufferMutex.put ⟨2 + 1, [0, 0, 0], 1, 1⟩ [7, 8]).1 = List.replicate 2 true ∧
      ((getN RingBufferMutex.get (putAll RingBufferMutex.put ⟨2 + 1, [0, 0, 0], 1, 1⟩ [7, 8]).2
          0 2).1.map Prod.fst) = List.replicate 2 true ∧
      RingBufferMutex.size (getN RingBufferMutex.get
          (putAll RingBufferMutex.put ⟨2 + 1, [0, 0, 0], 1, 1⟩ [7, 8]).2 0 2).2.2 = 0 ∧
      RingBufferMutex.empty (getN RingBufferMutex.get
          (putAll RingBufferMutex.put ⟨2 + 1, [0, 0, 0], 1, 1⟩ [7, 8]).2 0 2).2.2 = true ∧
      (getN RingBufferMutex.get
          (putAll RingBufferMutex.put ⟨2 + 1, [0, 0, 0], 1, 1⟩ [7, 8]).2 0 2).2.2._head =
        (getN RingBufferMutex.get
          (putAll RingBufferMutex.put ⟨2 + 1, [0, 0, 0], 1, 1⟩ [7, 8]).2 0 2).2.2._tail) ∧
    ((putAll RingBufferAtomic.put ⟨2 + 1, [0, 0, 0], 1, 1⟩ [7, 8]).1 = List.replicate 2 true ∧
      ((getN RingBufferAtomic.get (putAll RingBufferAtomic.put ⟨2 + 1, [0, 0, 0], 1, 1⟩ [7, 8]).2
          0 2).1.map Prod.fst) = List.replicate 2 true ∧
      RingBufferAtomic.size (getN RingBufferAtomic.get
          (putAll RingBufferAtomic.put ⟨2 + 1, [0, 0, 0], 1, 1⟩ [7, 8]).2 0 2).2.2 = 0 ∧
      RingBufferAtomic.empty (getN RingBufferAtomic.get
          (putAll RingBufferAtomic.put ⟨2 + 1, [0, 0, 0], 1, 1⟩ [7, 8]).2 0 2).2.2 = true ∧
      (getN RingBufferAtomic.get
          (putAll RingBufferAtomic.put ⟨2 + 1, [0, 0, 0], 1, 1⟩ [7, 8]).2 0 2).2.2._head =
        (getN RingBufferAtomic.get
          (putAll RingBufferAtomic.put ⟨2 + 1, [0, 0, 0], 1, 1⟩ [7, 8]).2 0 2).2.2._tail) :=
  round_trip 2 1 [0, 0, 0] [7, 8] 0 (by decide) (by decide) rfl rfl

/-- C9. `size()` is the modular distance from `_tail` to `_head`: in each variant, for
every state with `_head < N` and `_tail < N` (`N = _bufSize`, a `size_t`), `size()`
returns exactly `(_head - _tail) mod N` computed over the integers; in the branch
`_head < _tail` the difference `_head + N - _tail` does not go below zero and is the
value returned, although `_head + N` is computed in `size_t`; and the value returned
is `<= capacity()`. -/
theorem size_modular_distance {T : Type} (rb : RingBuffer T) (hN : rb._bufSize < SIZE_MOD)
    (hh : rb._head < rb._bufSize) (ht : rb._tail < rb._bufSize) :
    ((RingBufferMutex.size rb : Int) =
        ((rb._head : Int) - (rb._tail : Int)) % (rb._bufSize : Int) ∧
      (rb._head < rb._tail → rb._tail ≤ rb._head + rb._bufSize ∧
        RingBufferMutex.size rb = rb._head + rb._bufSize - rb._tail) ∧
      RingBufferMutex.size rb ≤ RingBufferMutex.capacity rb) ∧
    ((RingBufferAtomic.size rb : Int) =
        ((rb._head : Int) - (rb._tail : Int)) % (rb._bufSize : Int) ∧
      (rb._head < rb._tail → rb._tail ≤ rb._head + rb._bufSize ∧
        RingBufferAtomic.size rb = rb._head + rb._bufSize - rb._tail) ∧
      RingBufferAtomic.size rb ≤ RingBufferAtomic.capacity rb) ∧
    ((RingBufferAtomicTry.size rb : Int) =
        ((rb._head : Int) - (rb._tail : Int)) % (rb._bufSize : Int) ∧
      (rb._head < rb._tail → rb._tail ≤ rb._head + rb._bufSize ∧
        RingBufferAtomicTry.size rb = rb._head + rb._bufSize - rb._tail) ∧
      RingBufferAtomicTry.size rb ≤ RingBufferAtomicTry.capacity rb) := by
  have hs := size_val_of_lt rb hN hh ht
  have hcap : RingBufferAtomic.capacity rb = rb._bufSize - 1 := by
    simp only [RingBufferAtomic.capacity, sizeSub, SIZE_MOD] at *
    omega
  have key : (RingBufferAtomic.size rb : Int) =
        ((rb._head : Int) - (rb._tail : Int)) % (rb._bufSize : Int) ∧
      (rb._head < rb._tail → rb._tail ≤ rb._head + rb._bufSize ∧
        RingBufferAtomic.size rb = rb._head + rb._bufSize - rb._tail) ∧
      RingBufferAtomic.size rb ≤ RingBufferAtomic.capacity rb := by
    refine ⟨size_emod rb hN hh ht, ?_, ?_⟩
    · intro hlt
      rw [hs]
      split <;> omega
    · rw [hs, hcap]
      split <;> omega
  rw [mutex_size_eq, mutex_capacity_eq, try_size_eq, try_capacity_eq]
  exact ⟨key, key, key⟩

/-- Witness of `size_modular_distance`: four slots, `_head` wrapped round below
`_tail`. -/
theorem size_modular_distance_witness :
    ((RingBufferMutex.size (⟨4, [1, 2, 3, 4], 1, 3⟩ : RingBuffer Nat) : Int) =
        (((1 : Nat) : Int) - ((3 : Nat) : Int)) % ((4 : Nat) : Int) ∧
      (1 < 3 → 3 ≤ 1 + 4 ∧
        RingBufferMutex.size (⟨4, [1, 2, 3, 4], 1, 3⟩ : RingBuffer Nat) = 1 + 4 - 3) ∧
      RingBufferMutex.size (⟨4, [1, 2, 3, 4], 1, 3⟩ : RingBuffer Nat) ≤
        RingBufferMutex.capacity (⟨4, [1, 2, 3, 4], 1, 3⟩ : RingBuffer Nat)) ∧
    ((RingBufferAtomic.size (⟨4, [1, 2, 3, 4], 1, 3⟩ : RingBuffer Nat) : Int) =
        (((1 : Nat) : Int) - ((3 : Nat) : Int)) % ((4 : Nat) : Int) ∧
      (1 < 3 → 3 ≤ 1 + 4 ∧
        RingBufferAtomic.size (⟨4, [1, 2, 3, 4], 1, 3⟩ : RingBuffer Nat) = 1 + 4 - 3) ∧
      RingBufferAtomic.size (⟨4, [1, 2, 3, 4], 1, 3⟩ : RingBuffer Nat) ≤
        RingBufferAtomic.capacity (⟨4, [1, 2, 3, 4], 1, 3⟩ : RingBuffer Nat)) ∧
    ((RingBufferAtomicTry.size (⟨4, [1, 2, 3, 4], 1, 3⟩ : RingBuffer Nat) : Int) =
        (((1 : Nat) : Int) - ((3 : Nat) : Int)) % ((4 : Nat) : Int) ∧
      (1 < 3 → 3 ≤ 1 + 4 ∧
        RingBufferAtomicTry.size (⟨4, [1, 2, 3, 4], 1, 3⟩ : RingBuffer Nat) = 1 + 4 - 3) ∧
      RingBufferAtomicTry.size (⟨4, [1, 2, 3, 4], 1, 3⟩ : RingBuffer Nat) ≤
        RingBufferAtomicTry.capacity (⟨4, [1, 2, 3, 4], 1, 3⟩ : RingBuffer Nat)) :=
  size_modular_distance ⟨4, [1, 2, 3, 4], 1, 3⟩ (by decide) (by decide) (by decide)

/-- C10. Index-range invariant: in each of the three variants, for every capacity `c`
with `N = c + 1` slots (a `size_t`), the predicate `0 <= _head < N` and
`0 <= _tail < N` holds after construction, where the array has `N` slots, and is
preserved by every `put` and every `get`, successful or not, which also leave `N`
and the length of the array as they are; so every slot index used by `put` and `get`
is within the `N`-element array. -/
theorem index_range_invariant {T : Type} (uninit : Nat → T) (c : Nat) (rb : RingBuffer T)
    (value : T) (hc : c + 1 < SIZE_MOD) (hr : IndexInRange rb) :
    ((IndexInRange (RingBufferMutex.new uninit c) ∧
        (RingBufferMutex.new uninit c)._bufSize = c + 1 ∧
        (RingBufferMutex.new uninit c)._buffer.length = c + 1) ∧
      (IndexInRange (RingBufferMutex.put rb value).2 ∧
        (RingBufferMutex.put rb value).2._bufSize = rb._bufSize ∧
        (RingBufferMutex.put rb value).2._buffer.length = rb._buffer.length) ∧
      (IndexInRange (RingBufferMutex.get rb value).2.2 ∧
        (RingBufferMutex.get rb value).2.2._bufSize = rb._bufSize ∧
        (RingBufferMutex.get rb value).2.2._buffer.length = rb._buffer.length)) ∧
    ((IndexInRange (RingBufferAtomic.new uninit c) ∧
        (RingBufferAtomic.new uninit c)._bufSize = c + 1 ∧
        (RingBufferAtomic.new uninit c)._buffer.length = c + 1) ∧
      (IndexInRange (RingBufferAtomic.put rb value).2 ∧
        (RingBufferAtomic.put rb value).2._bufSize = rb._bufSize ∧
        (RingBufferAtomic.put rb value).2._buffer.length = rb._buffer.length) ∧
      (IndexInRange (RingBufferAtomic.get rb value).2.2 ∧
        (RingBufferAtomic.get rb value).2.2._bufSize = rb._bufSize ∧
        (RingBufferAtomic.get rb value).2.2._buffer.length = rb._buffer.length)) ∧
    ((IndexInRange (RingBufferAtomicTry.new uninit c) ∧
        (RingBufferAtomicTry.new uninit c)._bufSize = c + 1 ∧
        (RingBufferAtomicTry.new uninit c)._buffer.length = c + 1) ∧
      (IndexInRange (RingBufferAtomicTry.put rb value).2 ∧
        (RingBufferAtomicTry.put rb value).2._bufSize = rb._bufSize ∧
        (RingBufferAtomicTry.put rb value).2._buffer.length = rb._buffer.length) ∧
      (IndexInRange (RingBufferAtomicTry.get rb value).2.2 ∧
        (RingBufferAtomicTry.get rb value).2.2._bufSize = rb._bufSize ∧
        (RingBufferAtomicTry.get rb value).2.2._buffer.length = rb._buffer.length)) := by
  have hnew := new_fields uninit c hc
  have hput := put_index_range rb value hr
  have hget := get_index_range rb value hr
  have htry := try_put_index_range rb value hr
  rw [mutex_new_eq, mutex_put_eq, mutex_get_eq, try_new_eq, try_get_eq]
  exact ⟨⟨hnew, hput, hget⟩, ⟨hnew, hput, hget⟩, ⟨hnew, htry, hget⟩⟩

/-- Witness of `index_range_invariant`: construction with capacity 2, and the
operations on a full three-slot buffer whose `_head` is at the last slot. -/
theorem index_range_invariant_witness :
    ((IndexInRange (RingBufferMutex.new (fun _ => 0) 2) ∧
        (RingBufferMutex.new (fun _ => 0) 2)._bufSize = 2 + 1 ∧
        (RingBufferMutex.new (fun _ => 0) 2)._buffer.length = 2 + 1) ∧
      (IndexInRange (RingBufferMutex.put ⟨3, [1, 2, 3], 2, 0⟩ 9).2 ∧
        (RingBufferMutex.put ⟨3, [1, 2, 3], 2, 0⟩ 9).2._bufSize = 3 ∧
        (RingBufferMutex.put ⟨3, [1, 2, 3], 2, 0⟩ 9).2._buffer.length = [1, 2, 3].length) ∧
      (IndexInRange (RingBufferMutex.get ⟨3, [1, 2, 3], 2, 0⟩ 9).2.2 ∧
        (RingBufferMutex.get ⟨3, [1, 2, 3], 2, 0⟩ 9).2.2._bufSize = 3 ∧
        (RingBufferMutex.get ⟨3, [1, 2, 3], 2, 0⟩ 9).2.2._buffer.length = [1, 2, 3].length)) ∧
    ((IndexInRange (RingBufferAtomic.new (fun _ => 0) 2) ∧
        (RingBufferAtomic.new (fun _ => 0) 2)._bufSize = 2 + 1 ∧
        (RingBufferAtomic.new (fun _ => 0) 2)._buffer.length = 2 + 1) ∧
      (IndexInRange (RingBufferAtomic.put ⟨3, [1, 2, 3], 2, 0⟩ 9).2 ∧
        (RingBufferAtomic.put ⟨3, [1, 2, 3], 2, 0⟩ 9).2._bufSize = 3 ∧
        (RingBufferAtomic.put ⟨3, [1, 2, 3], 2, 0⟩ 9).2._buffer.length = [1, 2, 3].length) ∧
      (IndexInRange (RingBufferAtomic.get ⟨3, [1, 2, 3], 2, 0⟩ 9).2.2 ∧
        (RingBufferAtomic.get ⟨3, [1, 2, 3], 2, 0⟩ 9).2.2._bufSize = 3 ∧
        (RingBufferAtomic.get ⟨3, [1, 2, 3], 2, 0⟩ 9).2.2._buffer.length = [1, 2, 3].length)) ∧
    ((IndexInRange (RingBufferAtomicTry.new (fun _ => 0) 2) ∧
        (RingBufferAtomicTry.new (fun _ => 0) 2)._bufSize = 2 + 1 ∧
        (RingBufferAtomicTry.new (fun _ => 0) 2)._buffer.length = 2 + 1) ∧
      (IndexInRange (RingBufferAtomicTry.put ⟨3, [1, 2, 3], 2, 0⟩ 9).2 ∧
        (RingBufferAtomicTry.put ⟨3, [1, 2, 3], 2, 0⟩ 9).2._bufSize = 3 ∧
        (RingBufferAtomicTry.put ⟨3, [1, 2, 3], 2, 0⟩ 9).2._buffer.length = [1, 2, 3].length) ∧
      (IndexInRange (RingBufferAtomicTry.get ⟨3, [1, 2, 3], 2, 0⟩ 9).2.2 ∧
        (RingBufferAtomicTry.get ⟨3, [1, 2, 3], 2, 0⟩ 9).2.2._bufSize = 3 ∧
        (RingBufferAtomicTry.get ⟨3, [1, 2, 3], 2, 0⟩ 9).2.2._buffer.length =
          [1, 2, 3].length)) :=
  index_range_invariant (fun _ => 0) 2 ⟨3, [1, 2, 3], 2, 0⟩ 9 (by decide) (by decide)

/-- C11. Empty and full are distinguishable thanks to the extra slot: for every
capacity `c >= 1` (`N = c + 1 >= 2` slots) and every state with `_head`, `_tail`
below `N`, in each variant `empty()` and `full()` are never both true; moreover
`empty()` holds if and only if `size() == 0` and `full()` holds if and only if
`size() == capacity()`. -/
theorem empty_full_distinguishable {T : Type} (rb : RingBuffer T)
    (hN : rb._bufSize < SIZE_MOD) (hc : 2 ≤ rb._bufSize)
    (hh : rb._head < rb._bufSize) (ht : rb._tail < rb._bufSize) :
    (¬ (RingBufferMutex.empty rb = true ∧ RingBufferMutex.full rb = true) ∧
      (RingBufferMutex.empty rb = true ↔ RingBufferMutex.size rb = 0) ∧
      (RingBufferMutex.full rb = true ↔
        RingBufferMutex.size rb = RingBufferMutex.capacity rb)) ∧
    (¬ (RingBufferAtomic.empty rb = true ∧ RingBufferAtomic.full rb = true) ∧
      (RingBufferAtomic.empty rb = true ↔ RingBufferAtomic.size rb = 0) ∧
      (RingBufferAtomic.full rb = true ↔
        RingBufferAtomic.size rb = RingBufferAtomic.capacity rb)) ∧
    (¬ (RingBufferAtomicTry.empty rb = true ∧ RingBufferAtomicTry.full rb = true) ∧
      (RingBufferAtomicTry.empty rb = true ↔ RingBufferAtomicTry.size rb = 0) ∧
      (RingBufferAtomicTry.full rb = true ↔
        RingBufferAtomicTry.size rb = RingBufferAtomicTry.capacity rb)) := by
  have he := empty_iff_size_of_lt rb hN hh ht
  have hf := full_iff_size_of_lt rb hN hh ht
  have hcap := capacity_val_of_lt rb hN (by omega)
  have key : ¬ (RingBufferAtomic.empty rb = true ∧ RingBufferAtomic.full rb = true) ∧
      (RingBufferAtomic.empty rb = true ↔ RingBufferAtomic.size rb = 0) ∧
      (RingBufferAtomic.full rb = true ↔
        RingBufferAtomic.size rb = RingBufferAtomic.capacity rb) := by
    refine ⟨?_, he, ?_⟩
    · rintro ⟨h1, h2⟩
      have a := he.mp h1
      have b := hf.mp h2
      omega
    · rw [hf, hcap]; omega
  rw [mutex_empty_eq, mutex_full_eq, mutex_size_eq, mutex_capacity_eq,
    try_empty_eq, try_full_eq, try_size_eq, try_capacity_eq]
  exact ⟨key, key, key⟩

/-- Witness of `empty_full_distinguishable`: a full buffer of capacity 2. -/
theorem empty_full_distinguishable_witness :
    (¬ (RingBufferMutex.empty (⟨3, [1, 2, 3], 2, 0⟩ : RingBuffer Nat) = true ∧
          RingBufferMutex.full (⟨3, [1, 2, 3], 2, 0⟩ : RingBuffer Nat) = true) ∧
      (RingBufferMutex.empty (⟨3, [1, 2, 3], 2, 0⟩ : RingBuffer Nat) = true ↔
        RingBufferMutex.size (⟨3, [1, 2, 3], 2, 0⟩ : RingBuffer Nat) = 0) ∧
      (RingBufferMutex.full (⟨3, [1, 2, 3], 2, 0⟩ : RingBuffer Nat) = true ↔
        RingBufferMutex.size (⟨3, [1, 2, 3], 2, 0⟩ : RingBuffer Nat) =
          RingBufferMutex.capacity (⟨3, [1, 2, 3], 2, 0⟩ : RingBuffer Nat))) ∧
    (¬ (RingBufferAtomic.empty (⟨3, [1, 2, 3], 2, 0⟩ : RingBuffer Nat) = true ∧
          RingBufferAtomic.full (⟨3, [1, 2, 3], 2, 0⟩ : RingBuffer Nat) = true) ∧
      (RingBufferAtomic.empty (⟨3, [1, 2, 3], 2, 0⟩ : RingBuffer Nat) = true ↔
        RingBufferAtomic.size (⟨3, [1, 2, 3], 2, 0⟩ : RingBuffer Nat) = 0) ∧
      (RingBufferAtomic.full (⟨3, [1, 2, 3], 2, 0⟩ : RingBuffer Nat) = true ↔
        RingBufferAtomic.size (⟨3, [1, 2, 3], 2, 0⟩ : RingBuffer Nat) =
          RingBufferAtomic.capacity (⟨3, [1, 2, 3], 2, 0⟩ : RingBuffer Nat))) ∧
    (¬ (RingBufferAtomicTry.empty (⟨3, [1, 2, 3], 2, 0⟩ : RingBuffer Nat) = true ∧
          RingBufferAtomicTry.full (⟨3, [1, 2, 3], 2, 0⟩ : RingBuffer Nat) = true) ∧
      (RingBufferAtomicTry.empty (⟨3, [1, 2, 3], 2, 0⟩ : RingBuffer Nat) = true ↔
        RingBufferAtomicTry.size (⟨3, [1, 2, 3], 2, 0⟩ : RingBuffer Nat) = 0) ∧
      (RingBufferAtomicTry.full (⟨3, [1, 2, 3], 2, 0⟩ : RingBuffer Nat) = true ↔
        RingBufferAtomicTry.size (⟨3, [1, 2, 3], 2, 0⟩ : RingBuffer Nat) =
          RingBufferAtomicTry.capacity (⟨3, [1, 2, 3], 2, 0⟩ : RingBuffer Nat))) :=
  empty_full_distinguishable ⟨3, [1, 2, 3], 2, 0⟩ (by decide) (by decide) (by decide)
    (by decide)

/-- C12. The mutex-guarded and the lock-free variants are interchangeable when used
sequentially: for every capacity `c` (with `c + 1` slots a `size_t`) and every finite
sequence of `put(v)`, `get`, `empty`, `full`, `size` and `capacity` calls applied to a
fresh `RingBufferMutex` and to a fresh `RingBufferAtomic`, whatever the two allocations
left in the slots, the two give back the same result (boolean, content of the
variable passed to `get`, number) at every call. -/
theorem mutex_atomic_interchangeable {T : Type} (uninit1 uninit2 : Nat → T) (c : Nat)
    (val : T) (calls : List (Call T)) (hc : c + 1 < SIZE_MOD) :
    (runCalls RingBufferMutex.methods (RingBufferMutex.new uninit1 c, val) calls).map Prod.fst =
      (runCalls RingBufferAtomic.methods (RingBufferAtomic.new uninit2 c, val) calls).map
        Prod.fst := by
  obtain ⟨v1, b1, l1⟩ := new_valid uninit1 c hc
  obtain ⟨v2, b2, l2⟩ := new_valid uninit2 c hc
  rw [mutex_methods_eq, mutex_new_eq]
  exact runCalls_congr calls _ _ v1 v2 (by rw [b1, b2]) (by rw [l1, l2]) rfl

/-- Witness of `mutex_atomic_interchangeable`: capacity 2, slots left with different
contents, three inserts (the last one rejected), queries and removals. -/
theorem mutex_atomic_interchangeable_witness :
    (runCalls RingBufferMutex.methods (RingBufferMutex.new (fun _ => 0) 2, 5)
        [.put 1, .put 2, .put 3, .full, .size, .get, .get, .get, .empty, .capacity]).map
        Prod.fst =
      (runCalls RingBufferAtomic.methods (RingBufferAtomic.new (fun k => k + 40) 2, 5)
        [.put 1, .put 2, .put 3, .full, .size, .get, .get, .get, .empty, .capacity]).map
        Prod.fst :=
  mutex_atomic_interchangeable (fun _ => 0) (fun k => k + 40) 2 5
    [.put 1, .put 2, .put 3, .full, .size, .get, .get, .get, .empty, .capacity] (by decide)

/-- C13. The overwrite variant differs from the lock-free variant only in `put` on a
full buffer: in every state, `get`, `empty`, `full`, `size` and `capacity` of
`RingBufferAtomicTry` give the same result and next state as those of
`RingBufferAtomic`; whenever the buffer is not full, `RingBufferAtomicTry::put` gives
the same return value (`true`) and the same state (`_head`, `_tail`, slots) as
`RingBufferAtomic::put`; on a full buffer the first returns `true` and the second
`false`. -/
theorem try_differs_only_on_full {T : Type} (rb : RingBuffer T) (value : T) :
    RingBufferAtomicTry.get rb value = RingBufferAtomic.get rb value ∧
    RingBufferAtomicTry.empty rb = RingBufferAtomic.empty rb ∧
    RingBufferAtomicTry.full rb = RingBufferAtomic.full rb ∧
    RingBufferAtomicTry.size rb = RingBufferAtomic.size rb ∧
    RingBufferAtomicTry.capacity rb = RingBufferAtomic.capacity rb ∧
    (RingBufferAtomic.full rb = false →
      RingBufferAtomicTry.put rb value = RingBufferAtomic.put rb value ∧
      (RingBufferAtomicTry.put rb value).1 = true) ∧
    (RingBufferAtomic.full rb = true →
      (RingBufferAtomicTry.put rb value).1 = true ∧
      (RingBufferAtomic.put rb value).1 = false) := by
  refine ⟨rfl, rfl, rfl, rfl, rfl, ?_, ?_⟩
  · intro hf
    exact ⟨try_put_not_full rb value hf, rfl⟩
  · intro hf
    exact ⟨rfl, by rw [put_is_full rb value hf]⟩

/-- C14. Zero capacity: a buffer constructed with capacity 0 (one internal slot) is
both `empty()` and `full()` in every state reached by any sequence of `put` and `get`
calls, in each variant; in such a state every `get` returns `false`, and in the
non-overwrite variants every `put` returns `false` and changes nothing. -/
theorem zero_capacity {T : Type} (uninit : Nat → T) (val value : T) (ops : List (Op T)) :
    (RingBufferMutex.empty
        (afterCalls RingBufferMutex.methods (RingBufferMutex.new uninit 0, val)
          (ops.map Op.toCall)).1 = true ∧
      RingBufferMutex.full
        (afterCalls RingBufferMutex.methods (RingBufferMutex.new uninit 0, val)
          (ops.map Op.toCall)).1 = true ∧
      (RingBufferMutex.get
        (afterCalls RingBufferMutex.methods (RingBufferMutex.new uninit 0, val)
          (ops.map Op.toCall)).1 value).1 = false ∧
      RingBufferMutex.put
        (afterCalls RingBufferMutex.methods (RingBufferMutex.new uninit 0, val)
          (ops.map Op.toCall)).1 value =
        (false, (afterCalls RingBufferMutex.methods (RingBufferMutex.new uninit 0, val)
          (ops.map Op.toCall)).1)) ∧
    (RingBufferAtomic.empty
        (afterCalls RingBufferAtomic.methods (RingBufferAtomic.new uninit 0, val)
          (ops.map Op.toCall)).1 = true ∧
      RingBufferAtomic.full
        (afterCalls RingBufferAtomic.methods (RingBufferAtomic.new uninit 0, val)
          (ops.map Op.toCall)).1 = true ∧
      (RingBufferAtomic.get
        (afterCalls RingBufferAtomic.methods (RingBufferAtomic.new uninit 0, val)
          (ops.map Op.toCall)).1 value).1 = false ∧
      RingBufferAtomic.put
        (afterCalls RingBufferAtomic.methods (RingBufferAtomic.new uninit 0, val)
          (ops.map Op.toCall)).1 value =
        (false, (afterCalls RingBufferAtomic.methods (RingBufferAtomic.new uninit 0, val)
          (ops.map Op.toCall)).1)) ∧
    (RingBufferAtomicTry.empty
        (afterCalls RingBufferAtomicTry.methods (RingBufferAtomicTry.new uninit 0, val)
          (ops.map Op.toCall)).1 = true ∧
      RingBufferAtomicTry.full
        (afterCalls RingBufferAtomicTry.methods (RingBufferAtomicTry.new uninit 0, val)
          (ops.map Op.toCall)).1 = true ∧
      (RingBufferAtomicTry.get
        (afterCalls RingBufferAtomicTry.methods (RingBufferAtomicTry.new uninit 0, val)
          (ops.map Op.toCall)).1 value).1 = false) := by
  obtain ⟨n1, nh, nt⟩ := new_zero uninit
  obtain ⟨a1, ah, at0⟩ := afterCalls_one_slot ops (RingBufferAtomic.new uninit 0, val) n1 nh nt
  obtain ⟨t1, th, tt⟩ :=
    try_afterCalls_one_slot ops (RingBufferAtomic.new uninit 0, val) n1 nh nt
  have key : ∀ rb : RingBuffer T, rb._bufSize = 1 → rb._head = 0 → rb._tail = 0 →
      RingBufferAtomic.empty rb = true ∧ RingBufferAtomic.full rb = true ∧
      (RingBufferAtomic.get rb value).1 = false ∧
      RingBufferAtomic.put rb value = (false, rb) := by
    intro rb h1 hh ht
    refine ⟨?_, ?_, ?_, put_one_slot rb value h1 ht⟩
    · simp [RingBufferAtomic.empty, hh, ht]
    · simp [RingBufferAtomic.full, next_one_slot rb _ h1, ht]
    · rw [get_one_slot rb value hh ht]
  have ka := key _ a1 ah at0
  have kt := key _ t1 th tt
  rw [mutex_methods_eq, mutex_new_eq, mutex_empty_eq, mutex_full_eq, mutex_get_eq, mutex_put_eq,
    try_new_eq, try_empty_eq, try_full_eq, try_get_eq]
  exact ⟨ka, ka, kt.1, kt.2.1, kt.2.2.1⟩

/-- C16, counterexample. The example of the specification, capacity 3 with A, B, C
inserted (here 10, 11, 12): `(_head + 1) mod N == _tail` holds and `full()` is true,
and after `put` of D (13) the condition holds again, with `full()` still true. -/
theorem full_persists_counterexample :
    ((3 + 1) % 4 = 0 ∧
      RingBufferAtomicTry.full (⟨4, [10, 11, 12, 0], 3, 0⟩ : RingBuffer Nat) = true) ∧
    RingBufferAtomicTry.put (⟨4, [10, 11, 12, 0], 3, 0⟩ : RingBuffer Nat) 13 =
      (true, ⟨4, [10, 11, 12, 13], 0, 1⟩) ∧
    ((0 + 1) % 4 = 1 ∧
      RingBufferAtomicTry.full
        (RingBufferAtomicTry.put (⟨4, [10, 11, 12, 0], 3, 0⟩ : RingBuffer Nat) 13).2 = true) ∧
    ¬ (RingBufferAtomicTry.full
        (RingBufferAtomicTry.put (⟨4, [10, 11, 12, 0], 3, 0⟩ : RingBuffer Nat) 13).2 = false) := by
  decide

/-- C16, amended. In the overwrite variant the full state persists past an insert: for
every state of `RingBufferAtomicTry` with `N` a `size_t` and `_head < N` in which
`(_head + 1) mod N == _tail` holds, after one call of `put` the condition
`(_head + 1) mod N == _tail` holds again, `full()` is still true, `_head` is the old
`_tail` and `_tail` is `(old _tail + 1) mod N`. -/
theorem full_persists {T : Type} (rb : RingBuffer T) (value : T)
    (hN : rb._bufSize < SIZE_MOD) (hh : rb._head < rb._bufSize)
    (hfull : (rb._head + 1) % rb._bufSize = rb._tail) :
    ((RingBufferAtomicTry.put rb value).2._head + 1) % (RingBufferAtomicTry.put rb value).2._bufSize
        = (RingBufferAtomicTry.put rb value).2._tail ∧
      RingBufferAtomicTry.full (RingBufferAtomicTry.put rb value).2 = true ∧
      (RingBufferAtomicTry.put rb value).2._head = rb._tail ∧
      (RingBufferAtomicTry.put rb value).2._tail = (rb._tail + 1) % rb._bufSize := by
  have hpos : 0 < rb._bufSize := Nat.lt_of_le_of_lt (Nat.zero_le _) hh
  have ht : rb._tail < rb._bufSize := by rw [← hfull]; exact Nat.mod_lt _ hpos
  have n1 : ∀ x, x < rb._bufSize → RingBufferAtomic.next rb x = (x + 1) % rb._bufSize := by
    intro x hx
    unfold RingBufferAtomic.next sizeAdd
    rw [Nat.mod_eq_of_lt (a := x + 1) (by omega)]
  have hf : RingBufferAtomic.full rb = true := by
    simp only [RingBufferAtomic.full, beq_iff_eq]
    rw [n1 _ hh, hfull]
  rw [try_put_full rb value hf]
  simp only [try_full_eq, RingBufferAtomic.full, beq_iff_eq]
  have e : RingBufferAtomic.next
      { rb with _tail := RingBufferAtomic.next rb rb._tail,
                _buffer := rb._buffer.set rb._head value, _head := rb._tail } rb._tail =
      RingBufferAtomic.next rb rb._tail := rfl
  rw [e, n1 _ ht]
  exact ⟨rfl, rfl, trivial, rfl⟩

/-- Witness of `full_persists`: a full buffer of capacity 2 with `_head` at the last
slot. -/
theorem full_persists_witness :
    ((RingBufferAtomicTry.put (⟨3, [1, 2, 3], 2, 0⟩ : RingBuffer Nat) 9).2._head + 1) %
        (RingBufferAtomicTry.put (⟨3, [1, 2, 3], 2, 0⟩ : RingBuffer Nat) 9).2._bufSize
        = (RingBufferAtomicTry.put (⟨3, [1, 2, 3], 2, 0⟩ : RingBuffer Nat) 9).2._tail ∧
      RingBufferAtomicTry.full
        (RingBufferAtomicTry.put (⟨3, [1, 2, 3], 2, 0⟩ : RingBuffer Nat) 9).2 = true ∧
      (RingBufferAtomicTry.put (⟨3, [1, 2, 3], 2, 0⟩ : RingBuffer Nat) 9).2._head = 0 ∧
      (RingBufferAtomicTry.put (⟨3, [1, 2, 3], 2, 0⟩ : RingBuffer Nat) 9).2._tail =
        (0 + 1) % 3 :=
  full_persists ⟨3, [1, 2, 3], 2, 0⟩ 9 (by decide) (by decide) (by decide)

/-- C17. The non-overwrite buffer simulates a bounded FIFO queue under any
interleaving of operations: for every capacity `c` (with `c + 1` slots a `size_t`)
and every finite sequence of `put(v)` and `get` calls applied to a fresh
`RingBufferMutex` or `RingBufferAtomic`, the return value of each call and the content
of the output variable after it are those of the list-based queue with bound `c`, and
after every call `size()` is the length of that list and the list is the slots read
from `_tail` (inclusive) to `_head` (exclusive) modulo `N`. -/
theorem refines_bounded_queue {T : Type} (uninit : Nat → T) (c : Nat) (val : T)
    (ops : List (Op T)) (hc : c + 1 < SIZE_MOD) :
    (runCalls RingBufferMutex.methods (RingBufferMutex.new uninit c, val)
        (ops.map Op.toCall)).map (fun x => (x.1, RingBufferMutex.size x.2, live x.2)) =
      (BoundedQueue.runCalls (⟨c, []⟩, val) ops).map
        (fun x => (x.1, x.2.items.length, x.2.items)) ∧
    (runCalls RingBufferAtomic.methods (RingBufferAtomic.new uninit c, val)
        (ops.map Op.toCall)).map (fun x => (x.1, RingBufferAtomic.size x.2, live x.2)) =
      (BoundedQueue.runCalls (⟨c, []⟩, val) ops).map
        (fun x => (x.1, x.2.items.length, x.2.items)) := by
  obtain ⟨v, b, l⟩ := new_valid uninit c hc
  have key := runCalls_refines ops (RingBufferAtomic.new uninit c, val) (⟨c, []⟩, val) v b l rfl
  rw [mutex_methods_eq, mutex_new_eq, mutex_size_eq]
  exact ⟨key, key⟩

/-- Witness of `refines_bounded_queue`: capacity 2, three inserts (the last one
rejected) and three removals (the last one rejected). -/
theorem refines_bounded_queue_witness :
    (runCalls RingBufferMutex.methods (RingBufferMutex.new (fun _ => 0) 2, 5)
        ([Op.put 1, .put 2, .put 3, .get, .get, .get].map Op.toCall)).map
        (fun x => (x.1, RingBufferMutex.size x.2, live x.2)) =
      (BoundedQueue.runCalls (⟨2, []⟩, 5) [Op.put 1, .put 2, .put 3, .get, .get, .get]).map
        (fun x => (x.1, x.2.items.length, x.2.items)) ∧
    (runCalls RingBufferAtomic.methods (RingBufferAtomic.new (fun _ => 0) 2, 5)
        ([Op.put 1, .put 2, .put 3, .get, .get, .get].map Op.toCall)).map
        (fun x => (x.1, RingBufferAtomic.size x.2, live x.2)) =
      (BoundedQueue.runCalls (⟨2, []⟩, 5) [Op.put 1, .put 2, .put 3, .get, .get, .get]).map
        (fun x => (x.1, x.2.items.length, x.2.items)) :=
  refines_bounded_queue (fun _ => 0) 2 5 [Op.put 1, .put 2, .put 3, .get, .get, .get]
    (by decide)

/-- C18. Frame of the mutating operations in the non-overwrite variants
(`RingBufferMutex`, `RingBufferAtomic`): a successful `put` changes only the slot at
`_head` and `_head` (`_tail` and every other slot are unchanged), a successful `get`
changes only `_tail` and the caller's output variable (`_head` and every slot,
including the slot just read, are unchanged), and `capacity()` is the same before and
after every `put` and `get`, successful or not. -/
theorem frame_of_put_get {T : Type} (rb : RingBuffer T) (value : T) :
    (((RingBufferMutex.put rb value).1 = true →
        (RingBufferMutex.put rb value).2._tail = rb._tail ∧
        (RingBufferMutex.put rb value).2._buffer.length = rb._buffer.length ∧
        ∀ j, j ≠ rb._head → (RingBufferMutex.put rb value).2._buffer[j]? = rb._buffer[j]?) ∧
      ((RingBufferMutex.get rb value).1 = true →
        (RingBufferMutex.get rb value).2.2._head = rb._head ∧
        (RingBufferMutex.get rb value).2.2._buffer = rb._buffer) ∧
      RingBufferMutex.capacity (RingBufferMutex.put rb value).2 = RingBufferMutex.capacity rb ∧
      RingBufferMutex.capacity (RingBufferMutex.get rb value).2.2 =
        RingBufferMutex.capacity rb) ∧
    (((RingBufferAtomic.put rb value).1 = true →
        (RingBufferAtomic.put rb value).2._tail = rb._tail ∧
        (RingBufferAtomic.put rb value).2._buffer.length = rb._buffer.length ∧
        ∀ j, j ≠ rb._head → (RingBufferAtomic.put rb value).2._buffer[j]? = rb._buffer[j]?) ∧
      ((RingBufferAtomic.get rb value).1 = true →
        (RingBufferAtomic.get rb value).2.2._head = rb._head ∧
        (RingBufferAtomic.get rb value).2.2._buffer = rb._buffer) ∧
      RingBufferAtomic.capacity (RingBufferAtomic.put rb value).2 =
        RingBufferAtomic.capacity rb ∧
      RingBufferAtomic.capacity (RingBufferAtomic.get rb value).2.2 =
        RingBufferAtomic.capacity rb) := by
  have key : ((RingBufferAtomic.put rb value).1 = true →
        (RingBufferAtomic.put rb value).2._tail = rb._tail ∧
        (RingBufferAtomic.put rb value).2._buffer.length = rb._buffer.length ∧
        ∀ j, j ≠ rb._head → (RingBufferAtomic.put rb value).2._buffer[j]? = rb._buffer[j]?) ∧
      ((RingBufferAtomic.get rb value).1 = true →
        (RingBufferAtomic.get rb value).2.2._head = rb._head ∧
        (RingBufferAtomic.get rb value).2.2._buffer = rb._buffer) ∧
      RingBufferAtomic.capacity (RingBufferAtomic.put rb value).2 =
        RingBufferAtomic.capacity rb ∧
      RingBufferAtomic.capacity (RingBufferAtomic.get rb value).2.2 =
        RingBufferAtomic.capacity rb := by
    refine ⟨?_, ?_, ?_, ?_⟩
    · intro _
      unfold RingBufferAtomic.put
      simp only
      split
      · exact ⟨rfl, rfl, fun _ _ => rfl⟩
      · refine ⟨rfl, by simp, fun j hj => ?_⟩
        exact List.getElem?_set_ne (fun e => hj e.symm)
    · intro _
      unfold RingBufferAtomic.get
      simp only
      split <;> exact ⟨rfl, rfl⟩
    · unfold RingBufferAtomic.put RingBufferAtomic.capacity
      simp only
      split <;> rfl
    · unfold RingBufferAtomic.get RingBufferAtomic.capacity
      simp only
      split <;> rfl
  rw [mutex_put_eq, mutex_get_eq, mutex_capacity_eq]
  exact ⟨key, key⟩

set_option maxRecDepth 4000 in
/-- C15, evaluation. One producer inserting twelve values with sequence ids 0 to 11
into a `RingBufferAtomicTry` of capacity 10 and one consumer, their steps taken in the
order of `reorderSchedule`: at the end the producer has inserted every value, the
consumer is between two calls of `get`, every value it has obtained is one of the
values inserted, and it has obtained sequence id 11 followed by sequence id 1, so
`checkPrecendence` returns `false`. -/
theorem race_reorders :
    (runThreads (raceStart (fun _ => 0) 10 (producedValues reorderRands) 0)
        reorderSchedule).prod.values = [] ∧
    (runThreads (raceStart (fun _ => 0) 10 (producedValues reorderRands) 0)
        reorderSchedule).cons.point = .loadTail ∧
    (∀ v ∈ (runThreads (raceStart (fun _ => 0) 10 (producedValues reorderRands) 0)
        reorderSchedule).cons.consumedValues, v ∈ producedValues reorderRands) ∧
    (runThreads (raceStart (fun _ => 0) 10 (producedValues reorderRands) 0)
        reorderSchedule).cons.consumedValues.map unpack = [(11, 100), (1, -3)] ∧
    checkPrecendence (runThreads (raceStart (fun _ => 0) 10 (producedValues reorderRands) 0)
        reorderSchedule).cons.consumedValues = false := by
  decide

/-- C19. `pack`/`unpack` round trip of the stress-test payload: for every pair of
32-bit signed integers `(seq, num)`, negative ones included,
`unpack(pack(seq, num))` is exactly `(seq, num)`, and `pack(seq, num)` is
`((uint32 seq) << 32) | (uint32 num)` read as a signed 64-bit integer. -/
theorem unpack_pack (seq num : Int) (h1 : -2 ^ 31 ≤ seq) (h2 : seq < 2 ^ 31)
    (h3 : -2 ^ 31 ≤ num) (h4 : num < 2 ^ 31) :
    unpack (pack seq num) = (seq, num) ∧
      pack seq num = toInt64 (toUInt32 seq <<< 32 ||| toUInt32 num) := by
  have ha := toUInt32_lt seq
  have hb := toUInt32_lt num
  rw [shiftLeft_or_low _ _ hb, pack_bits]
  refine ⟨?_, rfl⟩
  unfold unpack
  rw [toUInt64_toInt64 _ (by omega), and_low_mask, Nat.shiftRight_eq_div_pow]
  have e1 : (2 ^ 32 * toUInt32 seq + toUInt32 num) / 2 ^ 32 = toUInt32 seq := by omega
  have e2 : (2 ^ 32 * toUInt32 seq + toUInt32 num) % 2 ^ 32 = toUInt32 num := by omega
  rw [e1, e2, toInt32_toUInt32 _ h1 h2, toInt32_toUInt32 _ h3 h4]

/-- Witness of `unpack_pack`: a negative sequence id and the least payload. -/
theorem unpack_pack_witness :
    unpack (pack (-5) (-2147483648)) = (-5, -2147483648) ∧
      pack (-5) (-2147483648) =
        toInt64 (toUInt32 (-5) <<< 32 ||| toUInt32 (-2147483648)) :=
  unpack_pack (-5) (-2147483648) (by decide) (by decide) (by decide) (by decide)

/-- C20. `pack` orders values by sequence id: for all 32-bit signed `seq1 < seq2` and
all `num1`, `num2`, `pack(seq1, num1) < pack(seq2, num2)` as signed 64-bit integers;
hence the vector `pack(0, r0), pack(1, r1), ..., pack(n-1, r(n-1))` built by
`testAtomicDataRace` (`n <= 2^31`, the counter being an `int32_t`) is strictly
increasing whatever the random payloads are. -/
theorem pack_orders_by_seq (seq1 seq2 num1 num2 : Int) (rands : List Int)
    (h1 : -2 ^ 31 ≤ seq1) (h12 : seq1 < seq2) (h2 : seq2 < 2 ^ 31)
    (hn : rands.length ≤ 2 ^ 31) :
    pack seq1 num1 < pack seq2 num2 ∧
      List.Pairwise (fun a b => a < b) (producedValues rands) := by
  refine ⟨pack_lt seq1 seq2 num1 num2 h1 h12 h2, ?_⟩
  exact producedFrom_pairwise rands 0 (by omega) (by omega)

/-- Witness of `pack_orders_by_seq`: a negative and a positive sequence id with the
greatest and the least payload, and three random numbers. -/
theorem pack_orders_by_seq_witness :
    pack (-1) 2147483647 < pack 0 (-2147483648) ∧
      List.Pairwise (fun a b => a < b) (producedValues [7, -7, 0]) :=
  pack_orders_by_seq (-1) 0 2147483647 (-2147483648) [7, -7, 0] (by decide) (by decide)
    (by decide) (by decide)

end RingBuf
